import Mathlib

/-!
Verification development for the NarrativeConversation backend
(`backend/app/file_manager.py`, `backend/app/main.py`).

The Python source is shallowly embedded: pure helpers become Lean
functions, the sandboxed file store becomes explicit state passing over a
finite file map, and the singleflight relay handler becomes a labelled
step relation on a configuration type.  Machine-level details that the
source delegates to the platform (UTF-8 codec of CPython, lexicographic
sorting of `list.sort`) are modelled explicitly.
-/

namespace NC

/-! ## UTF-8 codec

`file_manager.write_file` runs `content.encode('utf-8', errors='strict')`
and `read_file` opens the file with `encoding='utf-8'`.  We model Python
strings as lists of code points (`Nat`); `'strict'` encoding succeeds
exactly on scalar values (no surrogates, below 0x110000). -/

/-- A code point that CPython's strict UTF-8 codec accepts: not a
surrogate and within the Unicode range. -/
def ValidScalar (u : Nat) : Prop := u < 0x110000 ∧ (u < 0xD800 ∨ 0xE000 ≤ u)

instance (u : Nat) : Decidable (ValidScalar u) := by
  unfold ValidScalar; infer_instance

/-- UTF-8 encoding of one code point (1 to 4 bytes), as CPython emits it. -/
def utf8EncodeChar (u : Nat) : List Nat :=
  if u < 0x80 then [u]
  else if u < 0x800 then [0xC0 + u / 64, 0x80 + u % 64]
  else if u < 0x10000 then
    [0xE0 + u / 4096, 0x80 + (u / 64) % 64, 0x80 + u % 64]
  else
    [0xF0 + u / 262144, 0x80 + (u / 4096) % 64, 0x80 + (u / 64) % 64, 0x80 + u % 64]

/-- UTF-8 encoding of a whole string (list of code points). -/
def utf8Encode : List Nat → List Nat
  | [] => []
  | u :: us => utf8EncodeChar u ++ utf8Encode us

/-- One decoding step: given the lead byte and the remaining bytes,
produce the decoded code point and the bytes left over. -/
def utf8Step (b : Nat) (bs : List Nat) : Nat × List Nat :=
  if b < 0x80 then (b, bs)
  else if b < 0xE0 then
    match bs with
    | b1 :: bs1 => ((b - 0xC0) * 64 + (b1 - 0x80), bs1)
    | [] => (0, [])
  else if b < 0xF0 then
    match bs with
    | b1 :: b2 :: bs2 => ((b - 0xE0) * 4096 + (b1 - 0x80) * 64 + (b2 - 0x80), bs2)
    | _ => (0, [])
  else
    match bs with
    | b1 :: b2 :: b3 :: bs3 =>
        ((b - 0xF0) * 262144 + (b1 - 0x80) * 4096 + (b2 - 0x80) * 64 + (b3 - 0x80), bs3)
    | _ => (0, [])

theorem utf8Step_length_le (b : Nat) (bs : List Nat) :
    (utf8Step b bs).2.length ≤ bs.length := by
  unfold utf8Step
  split
  · exact Nat.le_refl _
  · split
    · split <;> simp
    · split
      · split <;> simp <;> omega
      · split <;> simp <;> omega

/-- UTF-8 decoding as CPython performs it on well-formed input (the model
is lenient on ill-formed byte sequences, which the development never
produces: every stored byte string is the image of `utf8Encode`). -/
def utf8Decode : List Nat → List Nat
  | [] => []
  | b :: bs => (utf8Step b bs).1 :: utf8Decode (utf8Step b bs).2
termination_by l => l.length
decreasing_by
  simp only [List.length_cons]
  exact Nat.lt_succ_of_le (utf8Step_length_le _ _)

theorem utf8Decode_encodeChar (u : Nat) (h : ValidScalar u) (bs : List Nat) :
    utf8Decode (utf8EncodeChar u ++ bs) = u :: utf8Decode bs := by
  obtain ⟨h1, _⟩ := h
  unfold utf8EncodeChar
  by_cases c1 : u < 0x80
  · rw [if_pos c1]
    rw [List.cons_append, List.nil_append, utf8Decode]
    have hs : utf8Step u bs = (u, bs) := by rw [utf8Step.eq_def, if_pos c1]
    rw [hs]
  · by_cases c2 : u < 0x800
    · rw [if_neg c1, if_pos c2]
      rw [List.cons_append, List.cons_append, List.nil_append, utf8Decode]
      have hs : utf8Step (0xC0 + u / 64) ((0x80 + u % 64) :: bs) = (u, bs) := by
        rw [utf8Step.eq_def, if_neg (by omega), if_pos (by omega)]
        dsimp only
        simp only [Prod.mk.injEq]
        exact ⟨by omega, trivial⟩
      rw [hs]
    · by_cases c3 : u < 0x10000
      · rw [if_neg c1, if_neg c2, if_pos c3]
        rw [List.cons_append, List.cons_append, List.cons_append, List.nil_append, utf8Decode]
        have hs : utf8Step (0xE0 + u / 4096)
            ((0x80 + (u / 64) % 64) :: (0x80 + u % 64) :: bs) = (u, bs) := by
          rw [utf8Step.eq_def, if_neg (by omega), if_neg (by omega), if_pos (by omega)]
          dsimp only
          simp only [Prod.mk.injEq]
          exact ⟨by omega, trivial⟩
        rw [hs]
      · rw [if_neg c1, if_neg c2, if_neg c3]
        rw [List.cons_append, List.cons_append, List.cons_append, List.cons_append,
          List.nil_append, utf8Decode]
        have hs : utf8Step (0xF0 + u / 262144)
            ((0x80 + (u / 4096) % 64) :: (0x80 + (u / 64) % 64) :: (0x80 + u % 64) :: bs)
            = (u, bs) := by
          rw [utf8Step.eq_def, if_neg (by omega), if_neg (by omega), if_neg (by omega)]
          dsimp only
          simp only [Prod.mk.injEq]
          exact ⟨by omega, trivial⟩
        rw [hs]

/-- Round trip of the codec on strings made of valid scalars. -/
theorem utf8Decode_utf8Encode (cs : List Nat) (h : ∀ u ∈ cs, ValidScalar u) :
    utf8Decode (utf8Encode cs) = cs := by
  induction cs with
  | nil => simp [utf8Encode, utf8Decode]
  | cons u us ih =>
      rw [utf8Encode, utf8Decode_encodeChar u (h u (List.mem_cons_self u us))]
      rw [ih (fun v hv => h v (List.mem_cons_of_mem u hv))]

/-! ## Path model (`file_manager._validate_file_path`, `path_utils`)

A path component is a `List Char`; a path is a list of components.  The
data root and backup root are the resolved `data/` and `backups/`
directories.  Inputs arrive as relative component lists (the HTTP layer
passes `file_path` strings; `Path` splits them on separators). -/

abbrev Name := List Char

abbrev FPath := List Name

/-- ASCII lowercasing of one character, as `str.lower()` acts on the
characters relevant to the extension allow-list. -/
def lowerChar (c : Char) : Char :=
  if 'A' ≤ c ∧ c ≤ 'Z' then Char.ofNat (c.toNat + 32) else c

def lowerName (n : Name) : Name := n.map lowerChar

/-- `pathlib.PurePath.suffix`: the extension of the final component,
which is `name[i:]` for the last dot index `i` when `0 < i < len - 1`,
else empty. -/
def suffixOf (name : Name) : Name :=
  match name.reverse.findIdx? (fun c => c = '.') with
  | none => []
  | some k =>
      if 0 < k ∧ k < name.length - 1 then (name.reverse.take (k + 1)).reverse else []

/-- `pathlib.PurePath.stem`: the final component without its suffix. -/
def stemOf (name : Name) : Name := name.take (name.length - (suffixOf name).length)

/-- The allow-list of `_validate_file_path` (line 60 of file_manager.py). -/
def allowedExtensions : List Name := [".txt".toList, ".json".toList, ".jsonl".toList]

/-- The extension gate: `Path(file_path).suffix.lower() in allowed_extensions`. -/
def extOk (p : FPath) : Bool :=
  match p.getLast? with
  | none => false
  | some name => allowedExtensions.contains (lowerName (suffixOf name))

/-- POSIX `Path.resolve()` normalisation of an absolute component list:
`..` pops one component (the root's parent is the root), `.` and empty
components vanish. -/
def normAbs (segs : FPath) : FPath :=
  segs.foldl
    (fun acc s =>
      if s = ['.', '.'] then acc.dropLast
      else if s = ['.'] ∨ s = [] then acc
      else acc ++ [s])
    []

/-- `(self.data_dir / file_path).resolve()` for a relative input. -/
def resolveUnder (root : FPath) (p : FPath) : FPath := normAbs (root ++ p)

inductive FMErr where
  | validationErr
  | lockTimeoutErr
  | encodingErr
deriving DecidableEq

instance {ε α : Type} [DecidableEq ε] [DecidableEq α] : DecidableEq (Except ε α) :=
  fun x y =>
    match x, y with
    | .error a, .error b => decidable_of_iff (a = b) (by simp)
    | .error _, .ok _ => .isFalse (by simp)
    | .ok _, .error _ => .isFalse (by simp)
    | .ok a, .ok b => decidable_of_iff (a = b) (by simp)

/-- `FileManager._validate_file_path`: extension allow-list first, then
resolution and the `is_relative_to(data_root)` containment check; a
failure of either raises `ValueError` (modelled as `validationErr`). -/
def validateFilePath (root : FPath) (p : FPath) : Except FMErr FPath :=
  if extOk p then
    let full := resolveUnder root p
    if root.isPrefixOf full then .ok full else .error .validationErr
  else .error .validationErr

/-! ## File store state and operations -/

/-- Association list update (used for both file maps). -/
def alSet {α β : Type} [DecidableEq α] : List (α × β) → α → β → List (α × β)
  | [], x, v => [(x, v)]
  | (k, w) :: rest, x, v =>
      if k = x then (x, v) :: rest else (k, w) :: alSet rest x v

def alGet {α β : Type} [DecidableEq α] : List (α × β) → α → Option β
  | [], _ => none
  | (k, v) :: rest, x => if k = x then some v else alGet rest x

def alDel {α β : Type} [DecidableEq α] : List (α × β) → α → List (α × β)
  | [], _ => []
  | (k, w) :: rest, x => if k = x then alDel rest x else (k, w) :: alDel rest x

theorem alGet_alSet_self {α β : Type} [DecidableEq α]
    (m : List (α × β)) (k : α) (v : β) : alGet (alSet m k v) k = some v := by
  induction m with
  | nil => simp [alSet, alGet]
  | cons kv rest ih =>
      by_cases h : kv.1 = k
      · simp [alSet, alGet, h]
      · simp [alSet, alGet, h, ih]

/-- The filesystem as the model sees it: data files, backup files
(keyed by backup directory and file name) and created directories. -/
structure FState where
  files : List (FPath × List Nat)
  backups : List ((FPath × Name) × List Nat)
  dirs : List FPath
deriving DecidableEq

/-- Universal-newline translation of Python text-mode reading
(`open(..., 'r')` with the default `newline=None`): each `'\r\n'` pair
and each lone `'\r'` in the decoded stream becomes `'\n'`. -/
def universalNewlines : List Nat → List Nat
  | [] => []
  | [c] => if c = 13 then [10] else [c]
  | c :: c2 :: rest =>
    if c = 13 then
      if c2 = 10 then 10 :: universalNewlines rest
      else 10 :: universalNewlines (c2 :: rest)
    else c :: universalNewlines (c2 :: rest)

/-- `FileManager.read_file`: validate, return `none` for a missing file,
otherwise the UTF-8 decoded content with the universal-newline
translation of the text-mode read (file_manager.py line 102,
`aiofiles.open(full_path, 'r', encoding='utf-8')`, `newline=None`).
Never mutates state. -/
def readFile (root : FPath) (st : FState) (p : FPath) :
    Except FMErr (Option (List Nat)) :=
  match validateFilePath root p with
  | .error e => .error e
  | .ok full =>
    match alGet st.files full with
    | none => .ok none
    | some bytes => .ok (some (universalNewlines (utf8Decode bytes)))

theorem universalNewlines_no_cr :
    ∀ (l : List Nat), (∀ u ∈ l, u ≠ 13) → universalNewlines l = l
  | [], _ => rfl
  | [c], h => by
      simp only [universalNewlines]
      rw [if_neg (h c (by simp))]
  | c :: c2 :: rest, h => by
      simp only [universalNewlines]
      rw [if_neg (h c (by simp))]
      rw [universalNewlines_no_cr (c2 :: rest) (fun u hu => h u (by simp [hu]))]

/-- `FileManager.delete_file`: validate, unlink when present, success in
both the existing- and missing-file cases. -/
def deleteFile (root : FPath) (st : FState) (p : FPath) :
    FState × Except FMErr Bool :=
  match validateFilePath root p with
  | .error e => (st, .error e)
  | .ok full => ({ st with files := alDel st.files full }, .ok true)

/-- `f"{stem}.{ts}{suffix}.bak"` (file_manager.py line 158). -/
def mkBackupName (stem : Name) (ts : Name) (suffix : Name) : Name :=
  stem ++ ('.' :: ts) ++ suffix ++ ".bak".toList

/-- The retention candidate filter (line 171): name starts with
`stem + "."` and ends with `suffix + ".bak"`. -/
def backupMatch (stem suffix : Name) (n : Name) : Bool :=
  (stem ++ ['.']).isPrefixOf n && (suffix ++ ".bak".toList).isSuffixOf n

/-- The retention candidates (line 171): files of the backup directory
whose name passes `backupMatch`. -/
def matchingEntries (st : FState) (bdir : FPath) (stem suffix : Name) :
    List ((FPath × Name) × List Nat) :=
  st.backups.filter (fun e => e.1.1 == bdir && backupMatch stem suffix e.1.2)

def candNames (st : FState) (bdir : FPath) (stem suffix : Name) : List Name :=
  (matchingEntries st bdir stem suffix).map (fun e => e.1.2)

/-- Sort candidate names descending (Python `candidates.sort(reverse=True)`,
lexicographic on code points) and keep only the first 30; the rest are
unlinked (lines 172-178). -/
def doomedBackups (cand : List Name) : List Name :=
  (cand.insertionSort (fun a b => a ≥ b)).drop 30

/-- The retention pass over one backup directory. -/
def pruneBackups (st : FState) (bdir : FPath) (stem suffix : Name) : FState :=
  let doomed := doomedBackups (candNames st bdir stem suffix)
  { st with
    backups := st.backups.filter
      (fun e => !(e.1.1 == bdir && doomed.contains e.1.2)) }

/-- `FileManager.write_file` in source order: validate; create the target's
parent directory; strict-UTF-8 encode check; create the backup directory;
take the per-path lock (bounded wait, `lockOk` says whether it was won);
under the lock back up an existing target and run retention; finally the
temp-file write plus `os.replace`, whose net effect is an atomic update of
the target entry. -/
def writeFile (dataRoot backupRoot : FPath) (st : FState) (p : FPath)
    (content : List Nat) (lockOk : Bool) (ts : Name) : FState × Except FMErr Bool :=
  match validateFilePath dataRoot p with
  | .error e => (st, .error e)
  | .ok full =>
    let st1 := { st with dirs := full.dropLast :: st.dirs }
    if content.all (fun u => decide (ValidScalar u)) then
      let rel := full.drop dataRoot.length
      let bdir := backupRoot ++ rel.dropLast
      let st2 := { st1 with dirs := bdir :: st1.dirs }
      if lockOk then
        let name := full.getLast?.getD []
        let stem := stemOf name
        let suffix := suffixOf name
        let st3 :=
          match alGet st2.files full with
          | some oldBytes =>
              pruneBackups
                { st2 with
                  backups := alSet st2.backups (bdir, mkBackupName stem ts suffix) oldBytes }
                bdir stem suffix
          | none => st2
        ({ st3 with files := alSet st3.files full (utf8Encode content) }, .ok true)
      else (st2, .error .lockTimeoutErr)
    else (st1, .error .encodingErr)

/-! ### Retention-pass lemmas -/

theorem map_filter_comp {α β : Type} (f : α → β) (p : β → Bool) (l : List α) :
    (l.filter (fun e => p (f e))).map f = (l.map f).filter p := by
  induction l with
  | nil => rfl
  | cons a rest ih =>
      by_cases h : p (f a)
      · simp [List.filter_cons, h, ih]
      · simp [List.filter_cons, h, ih]

theorem map_name_filter (doomed : List Name)
    (l : List ((FPath × Name) × List Nat)) :
    (l.filter (fun e => !doomed.contains e.1.2)).map (fun e => e.1.2)
      = (l.map (fun e => e.1.2)).filter (fun n => !doomed.contains n) := by
  induction l with
  | nil => rfl
  | cons a rest ih =>
      rw [List.filter_cons, List.map_cons, List.filter_cons]
      cases h : doomed.contains a.1.2 with
      | true =>
          rw [if_neg (by simp), if_neg (by simp)]
          exact ih
      | false =>
          rw [if_pos (by simp), if_pos (by simp)]
          rw [List.map_cons, ih]

/-- Descending insertion sort of an ascending list is its reverse. -/
theorem insertionSort_desc_of_ascending (l : List Name)
    (h : List.Sorted (· ≤ ·) l) :
    l.insertionSort (fun a b => a ≥ b) = l.reverse := by
  have hp : List.Perm (l.insertionSort (fun a b => a ≥ b)) l.reverse :=
    (List.perm_insertionSort _ l).trans l.reverse_perm.symm
  have h1 : List.Sorted (fun a b : Name => a ≥ b)
      (l.insertionSort (fun a b => a ≥ b)) :=
    List.sorted_insertionSort _ l
  have h2 : List.Sorted (fun a b : Name => a ≥ b) l.reverse := by
    rw [List.Sorted, List.pairwise_reverse]
    exact h.imp (fun hab => hab)
  exact List.eq_of_perm_of_sorted hp h1 h2

theorem doomedBackups_eq_of_ascending (cand : List Name)
    (h : List.Sorted (· ≤ ·) cand) :
    doomedBackups cand = (cand.take (cand.length - 30)).reverse := by
  rw [doomedBackups, insertionSort_desc_of_ascending cand h]
  rcases le_or_lt cand.length 30 with hle | hlt
  · rw [List.drop_eq_nil_of_le (by simpa using hle)]
    have h0 : cand.length - 30 = 0 := by omega
    rw [h0, List.take_zero, List.reverse_nil]
  · conv_lhs => rw [← List.take_append_drop (cand.length - 30) cand]
    rw [List.reverse_append]
    have hlen : (cand.drop (cand.length - 30)).reverse.length = 30 := by
      rw [List.length_reverse, List.length_drop]; omega
    rw [List.drop_left' hlen]

theorem mem_doomedBackups_sub (cand : List Name) (n : Name)
    (h : n ∈ doomedBackups cand) : n ∈ cand := by
  rw [doomedBackups] at h
  exact (List.mem_insertionSort _).mp (List.mem_of_mem_drop h)

/-- Every deleted candidate is lexicographically at most every kept
candidate (the retention pass deletes only the older names). -/
theorem doomed_le_kept (cand : List Name) (d k : Name)
    (hd : d ∈ doomedBackups cand) (hk : k ∈ cand)
    (hnk : k ∉ doomedBackups cand) : d ≤ k := by
  have hsorted : List.Pairwise (fun a b => a ≥ b)
      (cand.insertionSort (fun a b => a ≥ b)) :=
    List.sorted_insertionSort _ cand
  have hsplit := List.take_append_drop 30 (cand.insertionSort (fun a b => a ≥ b))
  rw [← hsplit] at hsorted
  have hcross := (List.pairwise_append.mp hsorted).2.2
  have hks : k ∈ cand.insertionSort (fun a b => a ≥ b) :=
    (List.mem_insertionSort _).mpr hk
  rw [← hsplit, List.mem_append] at hks
  rcases hks with hks | hks
  · exact hcross k hks d hd
  · exact absurd hks hnk

theorem candNames_match (st : FState) (bdir : FPath) (stem suffix : Name)
    (n : Name) (h : n ∈ candNames st bdir stem suffix) :
    backupMatch stem suffix n = true := by
  rw [candNames, List.mem_map] at h
  obtain ⟨e, he, rfl⟩ := h
  exact ((List.mem_filter.mp he).2 |> Bool.and_elim_right)

/-- A backup entry whose name does not pass the candidate filter for this
pass is never deleted by it. -/
theorem pruneBackups_keeps_nonmatching (st : FState) (bdir : FPath)
    (stem suffix : Name) (e : (FPath × Name) × List Nat)
    (he : e ∈ st.backups)
    (hnm : e.1.1 = bdir → backupMatch stem suffix e.1.2 = false) :
    e ∈ (pruneBackups st bdir stem suffix).backups := by
  rw [pruneBackups]
  rw [List.mem_filter]
  refine ⟨he, ?_⟩
  by_cases hd : e.1.1 = bdir
  · have hm := hnm hd
    have hcon : e.1.2 ∉ doomedBackups (candNames st bdir stem suffix) := by
      intro hmem
      have := candNames_match st bdir stem suffix e.1.2
        (mem_doomedBackups_sub _ _ hmem)
      rw [hm] at this
      cases this
    simp [hd, hcon]
  · simp [hd]

theorem matchingEntries_prune (st : FState) (bdir : FPath) (stem suffix : Name) :
    matchingEntries (pruneBackups st bdir stem suffix) bdir stem suffix
      = (matchingEntries st bdir stem suffix).filter
          (fun e => !(doomedBackups (candNames st bdir stem suffix)).contains e.1.2) := by
  rw [pruneBackups, matchingEntries, matchingEntries]
  rw [List.filter_filter, List.filter_filter]
  apply List.filter_congr
  intro e _
  cases hP : (e.1.1 == bdir) <;>
    cases hM : backupMatch stem suffix e.1.2 <;>
      cases hC : (doomedBackups (candNames st bdir stem suffix)).contains e.1.2 <;>
        simp [hP, hM, hC]

theorem filter_not_contains_reverse_append (A B : List Name)
    (hdis : ∀ a ∈ B, a ∉ A) :
    (A ++ B).filter (fun n => !A.reverse.contains n) = B := by
  rw [List.filter_append]
  have h1 : A.filter (fun n => !A.reverse.contains n) = [] := by
    rw [List.filter_eq_nil_iff]
    intro a ha
    have hmem : a ∈ A.reverse := List.mem_reverse.mpr ha
    simp [hmem]
  have h2 : B.filter (fun n => !A.reverse.contains n) = B := by
    rw [List.filter_eq_self]
    intro a ha
    have hmem : a ∉ A.reverse := by
      rw [List.mem_reverse]
      exact hdis a ha
    simp [hmem]
  rw [h1, h2, List.nil_append]

/-- On a strictly ascending candidate list the retention pass keeps
exactly the last 30 names. -/
theorem filter_doomed_of_ascending (cand : List Name)
    (h : List.Pairwise (· < ·) cand) :
    cand.filter (fun n => !(doomedBackups cand).contains n)
      = cand.drop (cand.length - 30) := by
  have hs : List.Sorted (· ≤ ·) cand := h.imp le_of_lt
  have hdis : ∀ a ∈ cand.drop (cand.length - 30),
      a ∉ cand.take (cand.length - 30) := by
    intro a ha hat
    have hsplit := List.take_append_drop (cand.length - 30) cand
    have h2 : List.Pairwise (fun x y : Name => x < y)
        (cand.take (cand.length - 30) ++ cand.drop (cand.length - 30)) := by
      rw [hsplit]; exact h
    have hcross := (List.pairwise_append.mp h2).2.2
    exact absurd (hcross a hat a ha) (lt_irrefl a)
  rw [doomedBackups_eq_of_ascending cand hs]
  have hded := filter_not_contains_reverse_append
    (cand.take (cand.length - 30)) (cand.drop (cand.length - 30)) hdis
  rw [List.take_append_drop] at hded
  exact hded

/-! ### Write-step lemmas for backup sequences -/

/-- The backup directory derived in `write_file` for a resolved target. -/
def bdirOf (dataRoot backupRoot full : FPath) : FPath :=
  backupRoot ++ (full.drop dataRoot.length).dropLast

/-- `full_path.name`. -/
def targetName (full : FPath) : Name := full.getLast?.getD []

theorem mem_of_alGet_eq_some {α β : Type} [DecidableEq α]
    (m : List (α × β)) (k : α) (v : β) (h : alGet m k = some v) : (k, v) ∈ m := by
  induction m with
  | nil => cases h
  | cons kv rest ih =>
      rw [alGet] at h
      by_cases hk : kv.1 = k
      · rw [if_pos hk] at h
        cases h
        obtain ⟨k1, v1⟩ := kv
        cases hk
        exact List.mem_cons_self _ _
      · rw [if_neg hk] at h
        exact List.mem_cons_of_mem _ (ih h)

theorem alSet_eq_append_of_alGet_none {α β : Type} [DecidableEq α]
    (m : List (α × β)) (k : α) (v : β) (h : alGet m k = none) :
    alSet m k v = m ++ [(k, v)] := by
  induction m with
  | nil => rfl
  | cons kv rest ih =>
      rw [alGet] at h
      by_cases hk : kv.1 = k
      · rw [if_pos hk] at h; cases h
      · rw [if_neg hk] at h
        rw [alSet, if_neg hk, ih h, List.cons_append]

theorem backupMatch_mkBackupName (stem ts suffix : Name) :
    backupMatch stem suffix (mkBackupName stem ts suffix) = true := by
  rw [backupMatch, mkBackupName]
  have hp : (stem ++ ['.']).isPrefixOf
      (stem ++ ('.' :: ts) ++ suffix ++ ".bak".toList) = true := by
    apply List.isPrefixOf_iff_prefix.mpr
    refine ⟨ts ++ suffix ++ ".bak".toList, ?_⟩
    simp [List.append_assoc]
  have hs : (suffix ++ ".bak".toList).isSuffixOf
      (stem ++ ('.' :: ts) ++ suffix ++ ".bak".toList) = true := by
    apply List.isSuffixOf_iff_suffix.mpr
    refine ⟨stem ++ ('.' :: ts), ?_⟩
    simp [List.append_assoc]
  rw [hp, hs]
  rfl

theorem lex_append_of_length_eq :
    ∀ {a b : Name}, List.Lex (· < ·) a b → a.length = b.length →
      ∀ t u : Name, List.Lex (· < ·) (a ++ t) (b ++ u)
  | _, _, .nil, hl, _, _ => by cases hl
  | _, _, .rel hr, _, _, _ => .rel hr
  | _, _, .cons h, hl, t, u =>
      .cons (lex_append_of_length_eq h (by simpa using hl) t u)

/-- Backup names with equal-length timestamps order like the timestamps. -/
theorem mkBackupName_lt (stem suffix : Name) {t1 t2 : Name}
    (h : List.Lex (· < ·) t1 t2) (hl : t1.length = t2.length) :
    mkBackupName stem t1 suffix < mkBackupName stem t2 suffix := by
  show List.Lex (· < ·) _ _
  rw [mkBackupName, mkBackupName]
  have e1 : stem ++ ('.' :: t1) ++ suffix ++ ".bak".toList
      = stem ++ ('.' :: (t1 ++ (suffix ++ ".bak".toList))) := by
    simp [List.append_assoc]
  have e2 : stem ++ ('.' :: t2) ++ suffix ++ ".bak".toList
      = stem ++ ('.' :: (t2 ++ (suffix ++ ".bak".toList))) := by
    simp [List.append_assoc]
  rw [e1, e2]
  exact List.Lex.append_left _
    (List.Lex.cons (lex_append_of_length_eq h hl _ _)) stem

/-- Keep the last `k` elements. -/
def lastN (k : Nat) (l : List Name) : List Name := l.drop (l.length - k)

theorem lastN_lastN_append (l m : List Name) :
    lastN 30 (lastN 30 l ++ m) = lastN 30 (l ++ m) := by
  unfold lastN
  rcases le_or_lt l.length 30 with h | h
  · have h0 : l.length - 30 = 0 := by omega
    rw [h0, List.drop_zero]
  · have hA : (l.drop (l.length - 30)).length = 30 := by
      rw [List.length_drop]; omega
    have hidx : (l.drop (l.length - 30) ++ m).length - 30 = m.length := by
      rw [List.length_append, hA]; omega
    have hidx2 : (l ++ m).length - 30 = l.length + m.length - 30 := by
      rw [List.length_append]
    rw [hidx, hidx2]
    rcases le_or_lt m.length 30 with hm | hm
    · rw [List.drop_append_of_le_length (by omega : m.length ≤ (l.drop (l.length - 30)).length)]
      rw [List.drop_append_of_le_length (by omega : l.length + m.length - 30 ≤ l.length)]
      rw [List.drop_drop]
      have e1 : l.length - 30 + m.length = l.length + m.length - 30 := by omega
      rw [e1]
    · have e3 : m.length = (l.drop (l.length - 30)).length + (m.length - 30) := by
        rw [hA]; omega
      have e4 : l.length + m.length - 30 = l.length + (m.length - 30) := by omega
      conv_lhs => rw [e3]
      rw [List.drop_append, e4, List.drop_append]

theorem pruneBackups_backups_only (st1 st2 : FState) (bdir : FPath)
    (stem suffix : Name) (h : st1.backups = st2.backups) :
    (pruneBackups st1 bdir stem suffix).backups
      = (pruneBackups st2 bdir stem suffix).backups := by
  simp [pruneBackups, candNames, matchingEntries, h]

theorem matchingEntries_backups_only (st1 st2 : FState) (bdir : FPath)
    (stem suffix : Name) (h : st1.backups = st2.backups) :
    matchingEntries st1 bdir stem suffix = matchingEntries st2 bdir stem suffix := by
  rw [matchingEntries, matchingEntries, h]

/-- A successful write stores the encoded content at the resolved path. -/
theorem writeFile_files_eq (dataRoot backupRoot : FPath) (st : FState)
    (p full : FPath) (c : List Nat) (ts : Name)
    (hval : validateFilePath dataRoot p = .ok full)
    (henc : c.all (fun u => decide (ValidScalar u)) = true) :
    (writeFile dataRoot backupRoot st p c true ts).1.files
      = alSet st.files full (utf8Encode c) := by
  cases halg : alGet st.files full <;>
    simp [writeFile, hval, henc, halg, pruneBackups]

theorem writeFile_isOk (dataRoot backupRoot : FPath) (st : FState)
    (p full : FPath) (c : List Nat) (ts : Name)
    (hval : validateFilePath dataRoot p = .ok full)
    (henc : c.all (fun u => decide (ValidScalar u)) = true) :
    (writeFile dataRoot backupRoot st p c true ts).2 = .ok true := by
  cases halg : alGet st.files full <;>
    simp [writeFile, hval, henc, halg]

/-- Writing to a previously missing target makes no backup. -/
theorem writeFile_backups_absent (dataRoot backupRoot : FPath) (st : FState)
    (p full : FPath) (c : List Nat) (ts : Name)
    (hval : validateFilePath dataRoot p = .ok full)
    (henc : c.all (fun u => decide (ValidScalar u)) = true)
    (habs : alGet st.files full = none) :
    (writeFile dataRoot backupRoot st p c true ts).1.backups = st.backups := by
  simp [writeFile, hval, henc, habs]

/-- Overwriting an existing target first records a backup named with the
write's timestamp, then runs the retention pass. -/
theorem writeFile_backups_exists (dataRoot backupRoot : FPath) (st : FState)
    (p full : FPath) (c : List Nat) (ts : Name) (b0 : List Nat)
    (hval : validateFilePath dataRoot p = .ok full)
    (henc : c.all (fun u => decide (ValidScalar u)) = true)
    (hex : alGet st.files full = some b0) :
    (writeFile dataRoot backupRoot st p c true ts).1.backups
      = (pruneBackups
          ⟨st.files,
            alSet st.backups
              (bdirOf dataRoot backupRoot full,
                mkBackupName (stemOf (targetName full)) ts (suffixOf (targetName full))) b0,
            st.dirs⟩
          (bdirOf dataRoot backupRoot full)
          (stemOf (targetName full)) (suffixOf (targetName full))).backups := by
  simp only [writeFile, hval, henc, if_true, hex]
  apply pruneBackups_backups_only
  rfl

/-- A sequence of writes to one path, each with its own content and
timestamp, all succeeding in acquiring the lock. -/
def writeSeq (dataRoot backupRoot : FPath) (p : FPath) :
    FState → List (List Nat × Name) → FState
  | st, [] => st
  | st, w :: rest =>
      writeSeq dataRoot backupRoot p
        (writeFile dataRoot backupRoot st p w.1 true w.2).1 rest

/-- Invariant induction for sequential writes to one path: the candidate
names in the target's backup directory are always the 30 greatest (most
recent) of the whole stream of backup names produced so far. -/
theorem writeSeq_matching_names
    (dataRoot backupRoot : FPath) (p full : FPath)
    (hval : validateFilePath dataRoot p = .ok full)
    (ws : List (List Nat × Name)) :
    ∀ (st : FState) (nms : List Name) (b0 : List Nat),
      alGet st.files full = some b0 →
      (matchingEntries st (bdirOf dataRoot backupRoot full)
          (stemOf (targetName full)) (suffixOf (targetName full))).map (fun e => e.1.2)
        = nms →
      nms.length ≤ 30 →
      List.Pairwise (· < ·)
        (nms ++ ws.map (fun w =>
          mkBackupName (stemOf (targetName full)) w.2 (suffixOf (targetName full)))) →
      (∀ w ∈ ws, w.1.all (fun u => decide (ValidScalar u)) = true) →
      (matchingEntries (writeSeq dataRoot backupRoot p st ws)
          (bdirOf dataRoot backupRoot full)
          (stemOf (targetName full)) (suffixOf (targetName full))).map (fun e => e.1.2)
        = lastN 30 (nms ++ ws.map (fun w =>
            mkBackupName (stemOf (targetName full)) w.2 (suffixOf (targetName full)))) := by
  induction ws with
  | nil =>
      intro st nms b0 hfile hnames hlen hpair hvalid
      rw [writeSeq, List.map_nil, List.append_nil, hnames, lastN]
      have h0 : nms.length - 30 = 0 := by omega
      rw [h0, List.drop_zero]
  | cons w rest ih =>
      obtain ⟨c, ts⟩ := w
      intro st nms b0 hfile hnames hlen hpair hvalid
      rw [List.map_cons] at hpair ⊢
      have henc : c.all (fun u => decide (ValidScalar u)) = true :=
        hvalid (c, ts) (List.mem_cons_self _ _)
      have hcross := (List.pairwise_append.mp hpair).2.2
      -- the fresh backup name
      have halGetB : alGet st.backups
          ((bdirOf dataRoot backupRoot full,
            mkBackupName (stemOf (targetName full)) ts (suffixOf (targetName full)))) = none := by
        cases hg : alGet st.backups
            ((bdirOf dataRoot backupRoot full,
              mkBackupName (stemOf (targetName full)) ts (suffixOf (targetName full)))) with
        | none => rfl
        | some v =>
            exfalso
            have hmem := mem_of_alGet_eq_some _ _ _ hg
            have hment : ((bdirOf dataRoot backupRoot full,
                mkBackupName (stemOf (targetName full)) ts (suffixOf (targetName full))), v)
                ∈ matchingEntries st (bdirOf dataRoot backupRoot full)
                    (stemOf (targetName full)) (suffixOf (targetName full)) := by
              rw [matchingEntries, List.mem_filter]
              refine ⟨hmem, ?_⟩
              rw [backupMatch_mkBackupName]
              simp
            have hinnms : mkBackupName (stemOf (targetName full)) ts (suffixOf (targetName full))
                ∈ nms := by
              rw [← hnames]
              exact List.mem_map_of_mem (fun e => e.1.2) hment
            have := hcross _ hinnms _ (List.mem_cons_self _ _)
            exact lt_irrefl _ this
      -- the state after the backup copy
      have hstB : alSet st.backups
          ((bdirOf dataRoot backupRoot full,
            mkBackupName (stemOf (targetName full)) ts (suffixOf (targetName full)))) b0
          = st.backups ++
            [((bdirOf dataRoot backupRoot full,
              mkBackupName (stemOf (targetName full)) ts (suffixOf (targetName full))), b0)] :=
        alSet_eq_append_of_alGet_none _ _ _ halGetB
      have hme : matchingEntries
          (⟨st.files,
            alSet st.backups
              (bdirOf dataRoot backupRoot full,
                mkBackupName (stemOf (targetName full)) ts (suffixOf (targetName full))) b0,
            st.dirs⟩ : FState)
          (bdirOf dataRoot backupRoot full)
          (stemOf (targetName full)) (suffixOf (targetName full))
          = matchingEntries st (bdirOf dataRoot backupRoot full)
              (stemOf (targetName full)) (suffixOf (targetName full)) ++
            [((bdirOf dataRoot backupRoot full,
              mkBackupName (stemOf (targetName full)) ts (suffixOf (targetName full))), b0)] := by
        rw [matchingEntries]
        show List.filter _ (alSet _ _ _) = _
        rw [hstB, List.filter_append]
        rw [matchingEntries]
        congr 1
        rw [List.filter_cons]
        rw [backupMatch_mkBackupName]
        simp
      -- names after the backup copy
      have hcand : candNames
          (⟨st.files,
            alSet st.backups
              (bdirOf dataRoot backupRoot full,
                mkBackupName (stemOf (targetName full)) ts (suffixOf (targetName full))) b0,
            st.dirs⟩ : FState)
          (bdirOf dataRoot backupRoot full)
          (stemOf (targetName full)) (suffixOf (targetName full))
          = nms ++ [mkBackupName (stemOf (targetName full)) ts (suffixOf (targetName full))] := by
        rw [candNames, hme, List.map_append, hnames, List.map_cons, List.map_nil]
      -- the ascending candidate list
      have hpairCand : List.Pairwise (· < ·)
          (nms ++ [mkBackupName (stemOf (targetName full)) ts (suffixOf (targetName full))]) := by
        refine List.Pairwise.sublist ?_ hpair
        refine List.Sublist.append_left ?_ nms
        exact (List.nil_sublist _).cons₂ _
      -- one write step
      have hfiles2 := writeFile_files_eq dataRoot backupRoot st p full c ts hval henc
      have hfile2 : alGet (writeFile dataRoot backupRoot st p c true ts).1.files full
          = some (utf8Encode c) := by
        rw [hfiles2]
        exact alGet_alSet_self _ _ _
      have hbk2 := writeFile_backups_exists dataRoot backupRoot st p full c ts b0 hval henc hfile
      have hnames2 : (matchingEntries (writeFile dataRoot backupRoot st p c true ts).1
          (bdirOf dataRoot backupRoot full)
          (stemOf (targetName full)) (suffixOf (targetName full))).map (fun e => e.1.2)
          = lastN 30 (nms ++
              [mkBackupName (stemOf (targetName full)) ts (suffixOf (targetName full))]) := by
        rw [matchingEntries_backups_only _ _ _ _ _ hbk2]
        rw [matchingEntries_prune, hcand]
        rw [map_name_filter]
        rw [hme, List.map_append, hnames, List.map_cons, List.map_nil]
        exact filter_doomed_of_ascending _ hpairCand
      -- recurse
      have hlen2 : (lastN 30 (nms ++
          [mkBackupName (stemOf (targetName full)) ts (suffixOf (targetName full))])).length
          ≤ 30 := by
        rw [lastN, List.length_drop]
        omega
      have hpair2 : List.Pairwise (· < ·)
          ((lastN 30 (nms ++
            [mkBackupName (stemOf (targetName full)) ts (suffixOf (targetName full))])) ++
            rest.map (fun w =>
              mkBackupName (stemOf (targetName full)) w.2 (suffixOf (targetName full)))) := by
        refine List.Pairwise.sublist ?_ hpair
        have h1 : List.Sublist
            (lastN 30 (nms ++
              [mkBackupName (stemOf (targetName full)) ts (suffixOf (targetName full))]))
            (nms ++ [mkBackupName (stemOf (targetName full)) ts (suffixOf (targetName full))]) :=
          List.drop_sublist _ _
        have h2 := List.Sublist.append_right h1
          (rest.map (fun w =>
            mkBackupName (stemOf (targetName full)) w.2 (suffixOf (targetName full))))
        rw [List.append_assoc, List.singleton_append] at h2
        exact h2
      have hrec := ih (writeFile dataRoot backupRoot st p c true ts).1
        (lastN 30 (nms ++
          [mkBackupName (stemOf (targetName full)) ts (suffixOf (targetName full))]))
        (utf8Encode c) hfile2 hnames2 hlen2 hpair2
        (fun w hw => hvalid w (List.mem_cons_of_mem _ hw))
      rw [writeSeq]
      rw [hrec, lastN_lastN_append]
      rw [List.append_assoc, List.singleton_append]

/-! ## File-store claim theorems -/

/-- C3, corrected: the retention pass deletes only names that pass the
candidate filter (`stem + "."` prefix and `suffix + ".bak"` suffix — a
set that can include backups of a different (stem, suffix), see the
counterexample), keeping exactly the 30 lexicographically greatest of
them, and every deleted candidate is at most every kept candidate.
After 35 sequential writes to one path — target initially absent, backup
directory initially free of matching names, strictly increasing
equal-length timestamps — exactly 30 backup generations exist and they
carry the 30 most recent timestamps. -/
theorem thmC3_retention_amended
    (dataRoot backupRoot : FPath) (st0 : FState) (p full : FPath)
    (ws : List (List Nat × Name))
    (hval : validateFilePath dataRoot p = .ok full)
    (habs : alGet st0.files full = none)
    (hclean : matchingEntries st0 (bdirOf dataRoot backupRoot full)
        (stemOf (targetName full)) (suffixOf (targetName full)) = [])
    (hn : ws.length = 35)
    (hvalid : ∀ w ∈ ws, w.1.all (fun u => decide (ValidScalar u)) = true)
    (hts : List.Pairwise (fun w1 w2 : List Nat × Name =>
        List.Lex (· < ·) w1.2 w2.2 ∧ w1.2.length = w2.2.length) ws) :
    (candNames (writeSeq dataRoot backupRoot p st0 ws)
        (bdirOf dataRoot backupRoot full)
        (stemOf (targetName full)) (suffixOf (targetName full))
      = ((ws.map (fun w => w.2)).drop 5).map
          (fun t => mkBackupName (stemOf (targetName full)) t (suffixOf (targetName full))))
    ∧ (candNames (writeSeq dataRoot backupRoot p st0 ws)
        (bdirOf dataRoot backupRoot full)
        (stemOf (targetName full)) (suffixOf (targetName full))).length = 30
    ∧ (∀ (st : FState) (bdir : FPath) (stem suffix : Name)
          (e : (FPath × Name) × List Nat),
        e ∈ st.backups → (e.1.1 = bdir → backupMatch stem suffix e.1.2 = false) →
        e ∈ (pruneBackups st bdir stem suffix).backups)
    ∧ (∀ (cand : List Name) (d k : Name), d ∈ doomedBackups cand → k ∈ cand →
        k ∉ doomedBackups cand → d ≤ k) := by
  cases ws with
  | nil => cases hn
  | cons w1 rest =>
      have hn34 : rest.length = 34 := by
        rw [List.length_cons] at hn
        omega
      have henc1 : w1.1.all (fun u => decide (ValidScalar u)) = true :=
        hvalid w1 (List.mem_cons_self _ _)
      -- the first write creates the file and no backup
      have hfull1 : alGet (writeFile dataRoot backupRoot st0 p w1.1 true w1.2).1.files full
          = some (utf8Encode w1.1) := by
        rw [writeFile_files_eq dataRoot backupRoot st0 p full w1.1 w1.2 hval henc1]
        exact alGet_alSet_self _ _ _
      have hm1 : (matchingEntries (writeFile dataRoot backupRoot st0 p w1.1 true w1.2).1
          (bdirOf dataRoot backupRoot full)
          (stemOf (targetName full)) (suffixOf (targetName full))).map (fun e => e.1.2)
          = [] := by
        rw [matchingEntries_backups_only _ st0 _ _ _
          (writeFile_backups_absent dataRoot backupRoot st0 p full w1.1 w1.2 hval henc1 habs)]
        rw [hclean]
        rfl
      -- name order from timestamp order
      have hpairRest : List.Pairwise (· < ·)
          (([] : List Name) ++ rest.map (fun w =>
            mkBackupName (stemOf (targetName full)) w.2 (suffixOf (targetName full)))) := by
        rw [List.nil_append]
        rw [List.pairwise_map]
        have hrest : List.Pairwise (fun w1 w2 : List Nat × Name =>
            List.Lex (· < ·) w1.2 w2.2 ∧ w1.2.length = w2.2.length) rest :=
          (List.pairwise_cons.mp hts).2
        exact hrest.imp (fun hab => mkBackupName_lt _ _ hab.1 hab.2)
      have hrec := writeSeq_matching_names dataRoot backupRoot p full hval rest
        (writeFile dataRoot backupRoot st0 p w1.1 true w1.2).1 [] (utf8Encode w1.1)
        hfull1 hm1 (by simp) hpairRest
        (fun w hw => hvalid w (List.mem_cons_of_mem _ hw))
      rw [List.nil_append] at hrec
      have hlen34 : (rest.map (fun w =>
          mkBackupName (stemOf (targetName full)) w.2 (suffixOf (targetName full)))).length
          = 34 := by
        rw [List.length_map, hn34]
      constructor
      · show (matchingEntries (writeSeq dataRoot backupRoot p
            (writeFile dataRoot backupRoot st0 p w1.1 true w1.2).1 rest)
            (bdirOf dataRoot backupRoot full)
            (stemOf (targetName full)) (suffixOf (targetName full))).map (fun e => e.1.2) = _
        rw [hrec, lastN, hlen34]
        show (rest.map (fun w =>
            mkBackupName (stemOf (targetName full)) w.2 (suffixOf (targetName full)))).drop 4
          = _
        rw [List.map_cons, List.drop_succ_cons]
        rw [← List.map_drop, ← List.map_drop, List.map_map]
        rfl
      refine ⟨?_, pruneBackups_keeps_nonmatching, doomed_le_kept⟩
      show ((matchingEntries (writeSeq dataRoot backupRoot p
          (writeFile dataRoot backupRoot st0 p w1.1 true w1.2).1 rest)
          (bdirOf dataRoot backupRoot full)
          (stemOf (targetName full)) (suffixOf (targetName full))).map (fun e => e.1.2)).length
          = 30
      rw [hrec, lastN, List.length_drop, hlen34]

def cexTs (n : Nat) : Name :=
  "2025-01-01T00-00-".toList ++
    [Char.ofNat (48 + n / 10), Char.ofNat (48 + n % 10)] ++ ".000000Z".toList

def cexBdir : FPath := ["b".toList]

/-- The backup name a write to `a.!.txt` would have produced: it belongs
to (stem, suffix) = ("a.!", ".txt"), not to ("a", ".txt"). -/
def cexForeignName : Name := mkBackupName "a.!".toList (cexTs 0) ".txt".toList

def cexState : FState :=
  ⟨[(["d".toList, "a.txt".toList], [67])],
    ((cexBdir, cexForeignName), [66]) ::
      (List.range 30).map (fun i =>
        ((cexBdir, mkBackupName "a".toList (cexTs (10 + i)) ".txt".toList), [65])),
    []⟩

def wsW : List (List Nat × Name) :=
  (List.range 35).map (fun i =>
    ([65], "T".toList ++ [Char.ofNat (48 + (10 + i) / 10), Char.ofNat (48 + (10 + i) % 10)]))

theorem thmC3_witness :
    (validateFilePath ["d".toList] ["a.txt".toList] = .ok ["d".toList, "a.txt".toList] ∧
      wsW.length = 35) ∧
    (candNames (writeSeq ["d".toList] ["b".toList] ["a.txt".toList] ⟨[], [], []⟩ wsW)
      (bdirOf ["d".toList] ["b".toList] ["d".toList, "a.txt".toList])
      (stemOf (targetName ["d".toList, "a.txt".toList]))
      (suffixOf (targetName ["d".toList, "a.txt".toList]))).length = 30 :=
  ⟨⟨by decide, by decide⟩,
    (thmC3_retention_amended ["d".toList] ["b".toList] ⟨[], [], []⟩ ["a.txt".toList]
      ["d".toList, "a.txt".toList] wsW (by decide) (by decide) (by decide) (by decide)
      (by decide) (by decide)).2.1⟩

/-- C3 counterexample: a backup belonging to the different stem `a.!`
(same `.txt` suffix, so a different (stem, suffix) pair) is present
before a write to `a.txt` and is deleted by that write's retention pass,
because the candidate filter `startswith("a.")`/`endswith(".txt.bak")`
also matches it and it sorts below every `a.<timestamp>` name. -/
theorem thmC3_counterexample :
    ((cexBdir, cexForeignName), [66]) ∈ cexState.backups ∧
    stemOf "a.!.txt".toList ≠ stemOf "a.txt".toList ∧
    suffixOf "a.!.txt".toList = suffixOf "a.txt".toList ∧
    cexForeignName
      = mkBackupName (stemOf "a.!.txt".toList) (cexTs 0) (suffixOf "a.!.txt".toList) ∧
    ((cexBdir, cexForeignName), [66]) ∉
      (writeFile ["d".toList] ["b".toList] cexState
        ["a.txt".toList] [68] true (cexTs 40)).1.backups := by
  decide

theorem readFile_writeFile_eq
    (dataRoot backupRoot : FPath) (st : FState) (p : FPath)
    (content : List Nat) (ts : Name)
    (hv : ∀ u ∈ content, ValidScalar u)
    (hw : (writeFile dataRoot backupRoot st p content true ts).2 = .ok true) :
    readFile dataRoot (writeFile dataRoot backupRoot st p content true ts).1 p
      = .ok (some (universalNewlines content)) := by
  have henc : content.all (fun u => decide (ValidScalar u)) = true := by
    rw [List.all_eq_true]; exact fun u hu => decide_eq_true (hv u hu)
  cases hval : validateFilePath dataRoot p with
  | error e =>
      simp only [writeFile, hval] at hw
      cases hw
  | ok full =>
      simp only [writeFile, readFile, hval, henc, if_true]
      rw [alGet_alSet_self]
      simp only [utf8Decode_utf8Encode content hv]

/-- C2, corrected: `write_file` stores the strict UTF-8 encoding of `C`
in binary mode, but `read_file` reads in text mode with universal-newline
translation, so `write_file(P, C)` followed by `read_file(P)` returns
`C` with every `'\r\n'` and lone `'\r'` mapped to `'\n'`; the round-trip
is exact precisely on content free of carriage returns (U+000D).
Stated for every valid-scalar content on which the write succeeds: the
read always returns the translated content, and returns exactly `C`
when `C` contains no carriage return. -/
theorem thmC2_roundtrip_amended
    (dataRoot backupRoot : FPath) (st : FState) (p : FPath)
    (content : List Nat) (ts : Name)
    (hv : ∀ u ∈ content, ValidScalar u)
    (hw : (writeFile dataRoot backupRoot st p content true ts).2 = .ok true) :
    readFile dataRoot (writeFile dataRoot backupRoot st p content true ts).1 p
      = .ok (some (universalNewlines content)) ∧
    ((∀ u ∈ content, u ≠ 13) →
      readFile dataRoot (writeFile dataRoot backupRoot st p content true ts).1 p
        = .ok (some content)) := by
  have hread := readFile_writeFile_eq dataRoot backupRoot st p content ts hv hw
  exact ⟨hread, fun hcr => by rw [hread, universalNewlines_no_cr content hcr]⟩

/-- C2 counterexample: writing `"a\r\nb"` (`[97, 13, 10, 98]`) and reading
it back yields `"a\nb"` (`[97, 10, 98]`) — the text-mode read translates
the stored `'\r\n'` to `'\n'`, refuting the byte-for-byte round-trip for
content with embedded carriage returns. -/
theorem thmC2_counterexample :
    readFile ["d".toList]
      (writeFile ["d".toList] ["b".toList] ⟨[], [], []⟩
        ["n".toList, "a.txt".toList] [97, 13, 10, 98] true "T1".toList).1
      ["n".toList, "a.txt".toList] = .ok (some [97, 10, 98]) ∧
    ([97, 10, 98] : List Nat) ≠ [97, 13, 10, 98] := by
  refine ⟨?_, by decide⟩
  have h := readFile_writeFile_eq ["d".toList] ["b".toList] ⟨[], [], []⟩
    ["n".toList, "a.txt".toList] [97, 13, 10, 98] "T1".toList (by decide) (by decide)
  rw [h]
  rfl

theorem thmC2_witness :
    (∀ u ∈ [104, 233, 10, 12371], ValidScalar u) ∧
    readFile ["d".toList]
      (writeFile ["d".toList] ["b".toList] ⟨[], [], []⟩
        ["n".toList, "a.txt".toList] [104, 233, 10, 12371] true "T1".toList).1
      ["n".toList, "a.txt".toList] = .ok (some [104, 233, 10, 12371]) :=
  ⟨by decide,
    (thmC2_roundtrip_amended ["d".toList] ["b".toList] ⟨[], [], []⟩
      ["n".toList, "a.txt".toList] [104, 233, 10, 12371] "T1".toList
      (by decide) (by decide)).2 (by decide)⟩

/-- C6: a path whose resolved form escapes the sandbox root, or whose
extension is outside the allow-list, is rejected by `read_file`,
`write_file` and `delete_file` with a validation error, and the file
state (data files, backups, directories) is returned unchanged. -/
theorem thmC6_validation_rejects
    (dataRoot backupRoot : FPath) (st : FState) (p : FPath)
    (content : List Nat) (lockOk : Bool) (ts : Name)
    (hbad : extOk p = false ∨ dataRoot.isPrefixOf (resolveUnder dataRoot p) = false) :
    readFile dataRoot st p = .error .validationErr ∧
    writeFile dataRoot backupRoot st p content lockOk ts = (st, .error .validationErr) ∧
    deleteFile dataRoot st p = (st, .error .validationErr) := by
  have hval : validateFilePath dataRoot p = .error .validationErr := by
    rcases hbad with h | h
    · rw [validateFilePath, h]; rfl
    · rw [validateFilePath]
      cases hext : extOk p
      · rfl
      · simp only [if_true]
        rw [h]
        rfl
  refine ⟨?_, ?_, ?_⟩
  · rw [readFile, hval]
  · rw [writeFile, hval]
  · rw [deleteFile, hval]

theorem thmC6_witness :
    (extOk ["..".toList, "x.txt".toList] = false ∨
      (["app".toList, "data".toList] : FPath).isPrefixOf
        (resolveUnder ["app".toList, "data".toList] ["..".toList, "x.txt".toList]) = false) ∧
    readFile ["app".toList, "data".toList] ⟨[], [], []⟩ ["..".toList, "x.txt".toList]
      = .error .validationErr :=
  ⟨by decide,
    (thmC6_validation_rejects ["app".toList, "data".toList] ["bk".toList] ⟨[], [], []⟩
      ["..".toList, "x.txt".toList] [] true [] (by decide)).1⟩

/-- C7: the two pre-write failure modes of `write_file` are mutation-free
on files.  If the content is not strict-UTF-8 encodable the write fails
with the encoding error; if it is encodable but the lock wait times out
the write fails with the lock-timeout error; in both cases the data-file
map and the backup map are returned unchanged, so in particular the
target file's previous content is untouched. -/
theorem thmC7_prewrite_failures_atomic
    (dataRoot backupRoot : FPath) (st : FState) (p full : FPath)
    (content : List Nat) (lockOk : Bool) (ts : Name)
    (hval : validateFilePath dataRoot p = .ok full)
    (hfail : lockOk = false ∨ ¬ ∀ u ∈ content, ValidScalar u) :
    ((writeFile dataRoot backupRoot st p content lockOk ts).2 = .error .lockTimeoutErr ∨
      (writeFile dataRoot backupRoot st p content lockOk ts).2 = .error .encodingErr) ∧
    (writeFile dataRoot backupRoot st p content lockOk ts).1.files = st.files ∧
    (writeFile dataRoot backupRoot st p content lockOk ts).1.backups = st.backups := by
  cases henc : content.all (fun u => decide (ValidScalar u)) with
  | false =>
      simp only [writeFile, hval, henc]
      exact ⟨Or.inr rfl, rfl, rfl⟩
  | true =>
      have hlock : lockOk = false := by
        rcases hfail with h | h
        · exact h
        · exact absurd (fun u hu => of_decide_eq_true (List.all_eq_true.mp henc u hu)) h
      simp only [writeFile, hval, henc, hlock, if_true, if_false]
      exact ⟨Or.inl rfl, rfl, rfl⟩

theorem thmC7_witness :
    (validateFilePath ["d".toList] ["a.txt".toList] = .ok ["d".toList, "a.txt".toList] ∧
      ((false = false) ∨ ¬ ∀ u ∈ [65], ValidScalar u)) ∧
    (writeFile ["d".toList] ["b".toList] ⟨[(["d".toList, "a.txt".toList], [66])], [], []⟩
        ["a.txt".toList] [65] false "T".toList).1.files
      = [(["d".toList, "a.txt".toList], [66])] :=
  ⟨⟨by decide, Or.inl rfl⟩,
    (thmC7_prewrite_failures_atomic ["d".toList] ["b".toList]
      ⟨[(["d".toList, "a.txt".toList], [66])], [], []⟩
      ["a.txt".toList] ["d".toList, "a.txt".toList] [65] false "T".toList
      (by decide) (Or.inl rfl)).2.1⟩

/-- C10: extension matching is case-insensitive.  If the suffix of the
final component lowercases into the allow-list, the extension gate
passes, and (when the resolved path stays inside the root) validation
accepts the path, so `read_file`, `write_file` and `delete_file` treat it
as an allowed extension. -/
theorem thmC10_ext_case_insensitive
    (root : FPath) (p : FPath) (name : Name)
    (hlast : p.getLast? = some name)
    (hsuf : lowerName (suffixOf name) ∈ allowedExtensions) :
    extOk p = true ∧
    (root.isPrefixOf (resolveUnder root p) = true →
      validateFilePath root p = .ok (resolveUnder root p)) := by
  have hext : extOk p = true := by
    rw [extOk, hlast]
    exact List.elem_eq_true_of_mem hsuf
  refine ⟨hext, fun hin => ?_⟩
  simp only [validateFilePath, hext, hin, if_true]

theorem thmC10_witness :
    ((["a.TXT".toList] : FPath).getLast? = some "a.TXT".toList ∧
      lowerName (suffixOf "a.TXT".toList) ∈ allowedExtensions) ∧
    validateFilePath ["d".toList] ["a.TXT".toList] = .ok ["d".toList, "a.TXT".toList] := by
  refine ⟨⟨rfl, by decide⟩, ?_⟩
  have h := (thmC10_ext_case_insensitive ["d".toList] ["a.TXT".toList] "a.TXT".toList
    rfl (by decide)).2 (by decide)
  exact h

/-! ## JSON payloads and the fingerprint key (main.py)

`payload` is the JSON body the frontend sends (`Dict[str, Any]` after
parsing).  `Json` models the parsed values; numbers are modelled as
integers (floats add nothing to the claims below). -/

inductive Json where
  | null
  | bool (b : Bool)
  | num (n : Int)
  | str (s : List Char)
  | arr (xs : List Json)
  | obj (fields : List (List Char × Json))

mutual

/-- Python `==` on parsed JSON values (objects in canonical key order). -/
def Json.beq : Json → Json → Bool
  | .null, .null => true
  | .bool a, .bool b => a == b
  | .num a, .num b => a == b
  | .str a, .str b => a == b
  | .arr xs, .arr ys => Json.beqList xs ys
  | .obj fs, .obj gs => Json.beqFields fs gs
  | _, _ => false

def Json.beqList : List Json → List Json → Bool
  | [], [] => true
  | x :: xs, y :: ys => Json.beq x y && Json.beqList xs ys
  | _, _ => false

def Json.beqFields : List (List Char × Json) → List (List Char × Json) → Bool
  | [], [] => true
  | (k1, v1) :: fs, (k2, v2) :: gs =>
      k1 == k2 && Json.beq v1 v2 && Json.beqFields fs gs
  | _, _ => false

end

mutual

theorem Json.beq_refl : ∀ a : Json, Json.beq a a = true
  | .null => rfl
  | .bool b => by simp [Json.beq]
  | .num n => by simp [Json.beq]
  | .str s => by simp [Json.beq]
  | .arr xs => Json.beqList_refl xs
  | .obj fs => Json.beqFields_refl fs

theorem Json.beqList_refl : ∀ xs : List Json, Json.beqList xs xs = true
  | [] => rfl
  | x :: xs => by
      rw [Json.beqList, Json.beq_refl x, Json.beqList_refl xs]
      rfl

theorem Json.beqFields_refl : ∀ fs : List (List Char × Json), Json.beqFields fs fs = true
  | [] => rfl
  | (k, v) :: fs => by
      rw [Json.beqFields, Json.beq_refl v, Json.beqFields_refl fs]
      simp

end

/-- Values that compare unequal under `Json.beq` are distinct. -/
theorem Json.ne_of_beq_false {a b : Json} (h : Json.beq a b = false) : a ≠ b := by
  intro hc
  rw [hc, Json.beq_refl] at h
  cases h

mutual

/-- `sort_keys=True`: recursively put every object's fields in ascending
key order before serialising. -/
def sortJson : Json → Json
  | .null => .null
  | .bool b => .bool b
  | .num n => .num n
  | .str s => .str s
  | .arr xs => .arr (sortJsonList xs)
  | .obj fs => .obj ((sortJsonFields fs).insertionSort (fun a b => a.1 ≤ b.1))

def sortJsonList : List Json → List Json
  | [] => []
  | x :: xs => sortJson x :: sortJsonList xs

def sortJsonFields : List (List Char × Json) → List (List Char × Json)
  | [] => []
  | (k, v) :: fs => (k, sortJson v) :: sortJsonFields fs

end

def hexDigit (n : Nat) : Char :=
  if n < 10 then Char.ofNat (48 + n) else Char.ofNat (87 + n)

/-- `json.dumps` string escaping with `ensure_ascii=False`: escape the
quote, the backslash and control characters, pass everything else. -/
def escapeChar (c : Char) : List Char :=
  if c = '"' then ['\\', '"']
  else if c = '\\' then ['\\', '\\']
  else if c = '\n' then ['\\', 'n']
  else if c = '\t' then ['\\', 't']
  else if c = '\r' then ['\\', 'r']
  else if c.toNat < 32 then
    ['\\', 'u', hexDigit (c.toNat / 4096 % 16), hexDigit (c.toNat / 256 % 16),
      hexDigit (c.toNat / 16 % 16), hexDigit (c.toNat % 16)]
  else [c]

def escapeStr (s : List Char) : List Char :=
  '"' :: s.foldr (fun c acc => escapeChar c ++ acc) ['"']

mutual

/-- `json.dumps(·, ensure_ascii=False, sort_keys=True, separators=(",", ":"))`
applied to an already key-sorted value (the `repr` fallback of
`_canonicalize_payload` fires only on unserialisable payloads, which a
parsed request body never is). -/
def serializeJson : Json → List Char
  | .null => "null".toList
  | .bool true => "true".toList
  | .bool false => "false".toList
  | .num n => (toString n).toList
  | .str s => escapeStr s
  | .arr xs => Char.ofNat 91 :: serializeJsonList xs ++ [Char.ofNat 93]
  | .obj fs => Char.ofNat 123 :: serializeJsonFields fs ++ [Char.ofNat 125]

def serializeJsonList : List Json → List Char
  | [] => []
  | [x] => serializeJson x
  | x :: y :: xs => serializeJson x ++ ',' :: serializeJsonList (y :: xs)

def serializeJsonFields : List (List Char × Json) → List Char
  | [] => []
  | [(k, v)] => escapeStr k ++ ':' :: serializeJson v
  | (k, v) :: g :: fs =>
      escapeStr k ++ ':' :: serializeJson v ++ ',' :: serializeJsonFields (g :: fs)

end

/-- `_canonicalize_payload` (main.py lines 158-164). -/
def canonicalizePayload (p : Json) : List Char := serializeJson (sortJson p)

/-- Python `str.strip()` whitespace set, restricted to ASCII. -/
def isPySpace (c : Char) : Bool :=
  c = ' ' || c = '\t' || c = '\n' || c = '\r' || c = Char.ofNat 11 || c = Char.ofNat 12

def pyStrip (s : List Char) : List Char :=
  ((s.dropWhile isPySpace).reverse.dropWhile isPySpace).reverse

/-- `_make_chat_key` (main.py lines 167-169):
`f"{base_url.strip()}|{api_key.strip()}|{canonical_payload}"`. -/
def mkChatKey (baseUrl apiKey : List Char) (payload : Json) : List Char :=
  pyStrip baseUrl ++ '|' :: pyStrip apiKey ++ '|' :: canonicalizePayload payload

theorem append_pipe_inj (u : List Char) :
    ∀ (u2 r r2 : List Char), '|' ∉ u → '|' ∉ u2 →
      u ++ '|' :: r = u2 ++ '|' :: r2 → u = u2 ∧ r = r2 := by
  induction u with
  | nil =>
      intro u2 r r2 _ hu2 h
      cases u2 with
      | nil =>
          rw [List.nil_append, List.nil_append] at h
          exact ⟨rfl, (List.cons.inj h).2⟩
      | cons c u2 =>
          rw [List.nil_append, List.cons_append] at h
          have hc := (List.cons.inj h).1
          rw [hc] at hu2
          exact absurd (List.mem_cons_self _ _) hu2
  | cons c u ih =>
      intro u2 r r2 hu hu2 h
      cases u2 with
      | nil =>
          rw [List.cons_append, List.nil_append] at h
          have hc := (List.cons.inj h).1
          rw [← hc] at hu
          exact absurd (List.mem_cons_self _ _) hu
      | cons c2 u2 =>
          rw [List.cons_append, List.cons_append] at h
          have h1 := (List.cons.inj h).1
          have h2 := (List.cons.inj h).2
          subst h1
          have hrec := ih u2 r r2 (fun hm => hu (List.mem_cons_of_mem _ hm))
            (fun hm => hu2 (List.mem_cons_of_mem _ hm)) h2
          exact ⟨by rw [hrec.1], hrec.2⟩

/-- C4, corrected: the fingerprint is deterministic (a pure function of
its three inputs), and it is injective up to trimming and payload
canonicalisation provided neither trimmed credential component contains
the `|` delimiter: two keys coincide exactly when the trimmed target
identities, trimmed credentials and canonical payload serialisations
coincide.  Injectivity in the claim's unrestricted sense is refuted by
the counterexample. -/
theorem thmC4_key_amended (a a2 k k2 : List Char) (p p2 : Json)
    (ha : '|' ∉ pyStrip a) (ha2 : '|' ∉ pyStrip a2)
    (hk : '|' ∉ pyStrip k) (hk2 : '|' ∉ pyStrip k2) :
    mkChatKey a k p = mkChatKey a k p ∧
    (mkChatKey a k p = mkChatKey a2 k2 p2 ↔
      (pyStrip a = pyStrip a2 ∧ pyStrip k = pyStrip k2 ∧
        canonicalizePayload p = canonicalizePayload p2)) := by
  refine ⟨rfl, ?_, ?_⟩
  · intro h
    rw [mkChatKey, mkChatKey] at h
    rw [List.append_assoc, List.append_assoc] at h
    simp only [List.cons_append] at h
    obtain ⟨hA, hrest⟩ := append_pipe_inj (pyStrip a) (pyStrip a2) _ _ ha ha2 h
    obtain ⟨hK, hP⟩ := append_pipe_inj (pyStrip k) (pyStrip k2) _ _ hk hk2 hrest
    exact ⟨hA, hK, hP⟩
  · intro ⟨hA, hK, hP⟩
    rw [mkChatKey, mkChatKey, hA, hK, hP]

/-- C4 counterexample: the delimiter is ambiguous — moving the text
around a `|` between target identity and credential, or padding a
component with whitespace, yields different inputs with the same
fingerprint. -/
theorem thmC4_counterexample :
    ("a|b".toList, "c".toList) ≠ ("a".toList, "b|c".toList) ∧
    mkChatKey "a|b".toList "c".toList (.obj [])
      = mkChatKey "a".toList "b|c".toList (.obj []) ∧
    " x".toList ≠ "x".toList ∧
    mkChatKey " x".toList "k".toList (.obj [])
      = mkChatKey "x".toList "k".toList (.obj []) :=
  ⟨by decide, by decide, by decide, by decide⟩

theorem thmC4_witness :
    ('|' ∉ pyStrip "u ".toList ∧ '|' ∉ pyStrip "u".toList ∧
      '|' ∉ pyStrip "v".toList) ∧
    mkChatKey "u ".toList "v".toList (.num 1) = mkChatKey "u".toList "v".toList (.num 1) :=
  ⟨⟨by decide, by decide, by decide⟩,
    (thmC4_key_amended "u ".toList "u".toList "v".toList "v".toList (.num 1) (.num 1)
      (by decide) (by decide) (by decide) (by decide)).2.mpr ⟨by decide, rfl, rfl⟩⟩

/-! ## The chat-completions relay (`chat_completions`, main.py 427-590)

The handler is embedded as a labelled transition system over one
fingerprint key.  Atomicity of each label is justified by the `asyncio`
semantics of the source: between the pending-map check (lines 430-439)
and the registration (479-488) the coroutine never awaits a pending
future (the two `asyncio.Lock` sections enclose only synchronous code and
the lock is never held across an await, so its fast path never yields),
hence check plus registration is one atomic step (`arrive`); likewise the
completion section (501-529 resp. 554-569/572-587) runs without yielding
between storing the result, setting the event, the cache update and the
handler's return (`leaderDone`).  A follower waking from
`asyncio.wait_for` (443-476) and a follower timing out are their own
steps; `_cleanup_pending_later` is the `cleanup` step, whose guard
reflects the 5-second grace period: it fires only after completion and
after every woken follower has read the result. -/

/-- The upstream response dict built by `APIClient.chat_completion`:
`status_code`, `content_type`, and exactly one of `json` / `text`. -/
structure Snapshot where
  status : Nat
  contentType : List Char
  jsonBody : Option Json
  textBody : Option (List Char)

inductive RBody where
  | jsonB (j : Json)
  | textB (t : List Char)
  | emptyB

/-- What a caller of the endpoint observes: HTTP status and body. -/
structure Response where
  status : Nat
  body : RBody

/-- Lines 470-476 and 545-548: `JSONResponse` when the stored snapshot
has a JSON body, a plain text response otherwise. -/
def responseOf (s : Snapshot) : Response :=
  { status := s.status,
    body := match s.jsonBody with
            | some j => .jsonB j
            | none => .textB (s.textBody.getD []) }

/-- `HTTPException(status_code, detail)`, rendered by FastAPI as the JSON
object with the single key `detail`. -/
def httpErrResponse (code : Nat) (detail : List Char) : Response :=
  ⟨code, .jsonB (.obj [("detail".toList, .str detail)])⟩

/-- How the leader's exception handlers fill the pending entry: the
upstream snapshot itself on a normal return, or an error snapshot with
the `error` JSON key (lines 557-561 and 575-579). -/
inductive UpOutcome where
  | ok (s : Snapshot)
  | transportErr (msg : List Char)
  | otherErr (msg : List Char)

def errSnapshot : UpOutcome → Snapshot
  | .ok s => s
  | .transportErr m =>
      ⟨502, "application/json".toList,
        some (.obj [("error".toList, .str ("Upstream request failed: ".toList ++ m))]), none⟩
  | .otherErr m =>
      ⟨500, "application/json".toList,
        some (.obj [("error".toList, .str ("AI API request failed: ".toList ++ m))]), none⟩

/-- What the leader itself answers: the relayed snapshot on success, or
the raised `HTTPException` (502/500) whose body uses the `detail` key. -/
def leaderResponse : UpOutcome → Response
  | .ok s => responseOf s
  | .transportErr m => httpErrResponse 502 ("Upstream request failed: ".toList ++ m)
  | .otherErr m => httpErrResponse 500 ("AI API request failed: ".toList ++ m)

/-- The follower-side wait timeout (line 445). -/
def timeoutResponse : Response :=
  httpErrResponse 504 "Upstream request still in progress (timeout)".toList

/-- The degenerate 500 of line 451, reachable only when the entry was
cleaned up before the woken follower read it. -/
def noResultResponse : Response :=
  httpErrResponse 500 "No result available after waiting".toList

structure ChatReq where
  baseUrl : List Char
  apiKey : List Char
  payload : Json

/-- `app.state.last_chat_completion_entry`. -/
structure LastEntry where
  req : ChatReq
  res : Snapshot
  storedAt : Nat

/-- One entry of `app.state.chat_pending_map`. -/
structure Entry where
  result : Option Snapshot
  eventSet : Bool
  createdAt : Nat

inductive Phase where
  | start
  | waiting
  | invoking
  | done (r : Response)

structure Config where
  pending : Option Entry
  cache : Option LastEntry
  tasks : List Phase
  upCount : Nat
  stamp : Nat

inductive Act where
  | arrive (i : Nat)
  | leaderDone (i : Nat) (u : UpOutcome)
  | wake (i : Nat)
  | timeout (i : Nat)
  | cleanup (ca : Nat)

/-- Lines 501-512 / 554-562 / 572-580: the pending entry after the
leader stores the result and fires the event. -/
def pendingAfterLeader (snap : Snapshot) : Option Entry → Option Entry
  | some e => some { e with result := some snap, eventSet := true }
  | none => none

/-- Lines 514-529: the cache slot after the leader's completion — written
only on the success path and only when the status is below 400. -/
def cacheAfterLeader (req : ChatReq) (c : Config) : UpOutcome → Option LastEntry
  | .ok s => if s.status < 400 then some ⟨req, s, c.stamp⟩ else c.cache
  | .transportErr _ => c.cache
  | .otherErr _ => c.cache

def noWaiting (ts : List Phase) : Bool :=
  ts.all (fun t => match t with | .waiting => false | _ => true)

/-- One atomic step of the handler for one fingerprint key shared by all
tasks; `req` is the common request triple (used by the cache writes). -/
def step (req : ChatReq) (c : Config) : Act → Option Config
  | .arrive i =>
      match c.tasks[i]? with
      | some .start =>
          match c.pending with
          | some e =>
              if e.eventSet then
                some { c with tasks := c.tasks.set i .invoking, upCount := c.upCount + 1 }
              else
                some { c with tasks := c.tasks.set i .waiting }
          | none =>
              some { c with
                pending := some ⟨none, false, c.stamp⟩,
                stamp := c.stamp + 1,
                tasks := c.tasks.set i .invoking,
                upCount := c.upCount + 1 }
      | _ => none
  | .leaderDone i u =>
      match c.tasks[i]? with
      | some .invoking =>
          some { c with
            pending := pendingAfterLeader (errSnapshot u) c.pending,
            cache := cacheAfterLeader req c u,
            tasks := c.tasks.set i (.done (leaderResponse u)),
            stamp := c.stamp + 1 }
      | _ => none
  | .wake i =>
      match c.tasks[i]? with
      | some .waiting =>
          match c.pending with
          | some e =>
              if e.eventSet then
                match e.result with
                | some r =>
                    some { c with
                      cache := if r.status < 400 then some ⟨req, r, c.stamp⟩ else c.cache,
                      tasks := c.tasks.set i (.done (responseOf r)),
                      stamp := c.stamp + 1 }
                | none =>
                    some { c with tasks := c.tasks.set i (.done noResultResponse) }
              else none
          | none =>
              some { c with tasks := c.tasks.set i (.done noResultResponse) }
      | _ => none
  | .timeout i =>
      match c.tasks[i]? with
      | some .waiting =>
          match c.pending with
          | some e =>
              if e.eventSet then none
              else some { c with tasks := c.tasks.set i (.done timeoutResponse) }
          | none => none
      | _ => none
  | .cleanup ca =>
      match c.pending with
      | some e =>
          if e.eventSet && e.createdAt == ca && noWaiting c.tasks then
            some { c with pending := none }
          else none
      | none => none

def exec (req : ChatReq) : Config → List Act → Option Config
  | c, [] => some c
  | c, a :: rest =>
      match step req c a with
      | some c2 => exec req c2 rest
      | none => none

/-- `n` fresh concurrent requests sharing one key, empty registry and
empty last-completion slot. -/
def init (n : Nat) : Config :=
  ⟨none, none, List.replicate n .start, 0, 0⟩

/-! ## C5: the last-completion slot holds only sub-400 records -/

theorem step_cache_inv (req : ChatReq) (c c2 : Config) (a : Act)
    (hinv : ∀ e, c.cache = some e → e.res.status < 400)
    (hstep : step req c a = some c2) :
    ∀ e, c2.cache = some e → e.res.status < 400 := by
  intro e he
  cases a with
  | arrive i =>
      rw [step] at hstep
      split at hstep
      · split at hstep
        · split at hstep
          · cases hstep; exact hinv e he
          · cases hstep; exact hinv e he
        · cases hstep; exact hinv e he
      · cases hstep
  | leaderDone i u =>
      rw [step] at hstep
      split at hstep
      · cases hstep
        have he2 : cacheAfterLeader req c u = some e := he
        cases u with
        | ok s =>
            rw [cacheAfterLeader] at he2
            by_cases hlt : s.status < 400
            · rw [if_pos hlt] at he2
              cases he2
              exact hlt
            · rw [if_neg hlt] at he2
              exact hinv e he2
        | transportErr m => exact hinv e he2
        | otherErr m => exact hinv e he2
      · cases hstep
  | wake i =>
      rw [step] at hstep
      split at hstep
      · split at hstep
        · split at hstep
          · split at hstep
            · cases hstep
              rename_i r _
              by_cases hlt : r.status < 400
              · rw [if_pos hlt] at he
                cases he
                exact hlt
              · rw [if_neg hlt] at he
                exact hinv e he
            · cases hstep; exact hinv e he
          · cases hstep
        · cases hstep; exact hinv e he
      · cases hstep
  | timeout i =>
      rw [step] at hstep
      split at hstep
      · split at hstep
        · split at hstep
          · cases hstep
          · cases hstep; exact hinv e he
        · cases hstep
      · cases hstep
  | cleanup ca =>
      rw [step] at hstep
      split at hstep
      · split at hstep
        · cases hstep; exact hinv e he
        · cases hstep
      · cases hstep

theorem exec_cache_inv (req : ChatReq) (acts : List Act) :
    ∀ (c final : Config),
      (∀ e, c.cache = some e → e.res.status < 400) →
      exec req c acts = some final →
      ∀ e, final.cache = some e → e.res.status < 400 := by
  induction acts with
  | nil =>
      intro c final hinv hrun
      rw [exec] at hrun
      cases hrun
      exact hinv
  | cons a rest ih =>
      intro c final hinv hrun
      rw [exec] at hrun
      cases hstep : step req c a with
      | none => rw [hstep] at hrun; cases hrun
      | some c2 =>
          rw [hstep] at hrun
          exact ih c2 final (step_cache_inv req c c2 a hinv hstep) hrun

/-- C5: in every execution of the relay from a fresh registry, the
last-completion slot only ever holds records whose status is strictly
below 400 — every cache write (leader success path 514-529, follower path
453-468) is guarded by `status_code < 400`, and the 502/500 error
snapshot paths never write the slot, so no failed exchange changes it. -/
theorem thmC5_cache_only_success (req : ChatReq) (n : Nat) (acts : List Act)
    (final : Config) (hrun : exec req (init n) acts = some final) :
    ∀ e, final.cache = some e → e.res.status < 400 :=
  exec_cache_inv req acts (init n) final (fun _ he => by cases he) hrun

def c5req : ChatReq := ⟨"b".toList, "k".toList, .null⟩

def c5snap : Snapshot := ⟨200, "application/json".toList, some .null, none⟩

def c5final : Config :=
  ⟨some ⟨some c5snap, true, 0⟩, some ⟨c5req, c5snap, 1⟩,
    [.done (leaderResponse (.ok c5snap))], 1, 2⟩

theorem thmC5_witness :
    exec c5req (init 1) [.arrive 0, .leaderDone 0 (.ok c5snap)] = some c5final ∧
    c5final.cache = some ⟨c5req, c5snap, 1⟩ ∧
    (⟨c5req, c5snap, 1⟩ : LastEntry).res.status < 400 :=
  ⟨rfl, rfl,
    thmC5_cache_only_success c5req 1 [.arrive 0, .leaderDone 0 (.ok c5snap)]
      c5final rfl ⟨c5req, c5snap, 1⟩ rfl⟩

/-! ## C9: follower wait timeout -/

/-- A task that is already done keeps its response through every further
step: each action mutates only a task in the `start`, `waiting` or
`invoking` phase. -/
theorem step_preserves_done (req : ChatReq) (c c2 : Config) (a : Act)
    (j : Nat) (r : Response)
    (hj : c.tasks[j]? = some (.done r))
    (hstep : step req c a = some c2) :
    c2.tasks[j]? = some (.done r) := by
  have hset : ∀ (i : Nat) (t : Phase) (ph : Phase), c.tasks[i]? = some ph →
      (ph = .start ∨ ph = .waiting ∨ ph = .invoking) →
      (c.tasks.set i t)[j]? = some (.done r) := by
    intro i t ph hph hcases
    by_cases hij : i = j
    · subst hij
      rw [hph] at hj
      cases hj
      rcases hcases with h | h | h <;> cases h
    · rw [List.getElem?_set_ne hij]
      exact hj
  cases a with
  | arrive i =>
      rw [step] at hstep
      split at hstep
      · split at hstep
        · split at hstep
          · cases hstep
            exact hset i _ _ (by assumption) (Or.inl rfl)
          · cases hstep
            exact hset i _ _ (by assumption) (Or.inl rfl)
        · cases hstep
          exact hset i _ _ (by assumption) (Or.inl rfl)
      · cases hstep
  | leaderDone i u =>
      rw [step] at hstep
      split at hstep
      · cases hstep
        exact hset i _ _ (by assumption) (Or.inr (Or.inr rfl))
      · cases hstep
  | wake i =>
      rw [step] at hstep
      split at hstep
      · split at hstep
        · split at hstep
          · split at hstep
            · cases hstep
              exact hset i _ _ (by assumption) (Or.inr (Or.inl rfl))
            · cases hstep
              exact hset i _ _ (by assumption) (Or.inr (Or.inl rfl))
          · cases hstep
        · cases hstep
          exact hset i _ _ (by assumption) (Or.inr (Or.inl rfl))
      · cases hstep
  | timeout i =>
      rw [step] at hstep
      split at hstep
      · split at hstep
        · split at hstep
          · cases hstep
          · cases hstep
            exact hset i _ _ (by assumption) (Or.inr (Or.inl rfl))
        · cases hstep
      · cases hstep
  | cleanup ca =>
      rw [step] at hstep
      split at hstep
      · split at hstep
        · cases hstep
          exact hj
        · cases hstep
      · cases hstep

theorem exec_preserves_done (req : ChatReq) (acts : List Act) :
    ∀ (c final : Config) (j : Nat) (r : Response),
      c.tasks[j]? = some (.done r) →
      exec req c acts = some final →
      final.tasks[j]? = some (.done r) := by
  induction acts with
  | nil =>
      intro c final j r hj hrun
      rw [exec] at hrun
      cases hrun
      exact hj
  | cons a rest ih =>
      intro c final j r hj hrun
      rw [exec] at hrun
      cases hstep : step req c a with
      | none => rw [hstep] at hrun; cases hrun
      | some c2 =>
          rw [hstep] at hrun
          exact ih c2 final j r (step_preserves_done req c c2 a j r hj hstep) hrun

/-- C9: a follower whose bounded wait elapses before the completion
signal answers with the fixed 504 wait-timeout response; whatever the
rest of the execution does afterwards — in particular whatever outcome
the leader's upstream call eventually has — that follower's response
stays this 504, which is distinct from the 502 transport-error and 500
internal-error outcomes. -/
theorem thmC9_follower_timeout (req : ChatReq) (c c2 final : Config)
    (i : Nat) (acts : List Act)
    (ht : step req c (.timeout i) = some c2)
    (hrest : exec req c2 acts = some final) :
    final.tasks[i]? = some (.done timeoutResponse) ∧
    timeoutResponse.status = 504 ∧
    (∀ m, (leaderResponse (.transportErr m)).status = 502) ∧
    (∀ m, (leaderResponse (.otherErr m)).status = 500) ∧
    (504 : Nat) ≠ 502 ∧ (504 : Nat) ≠ 500 := by
  have hdone : c2.tasks[i]? = some (.done timeoutResponse) := by
    rw [step] at ht
    split at ht
    · split at ht
      · split at ht
        · cases ht
        · cases ht
          have hph : c.tasks[i]? = some .waiting := by assumption
          rw [List.getElem?_set]
          have hlt : i < c.tasks.length := by
            cases hlen : decide (i < c.tasks.length) with
            | true => exact of_decide_eq_true hlen
            | false =>
                have := List.getElem?_eq_none (le_of_not_lt (of_decide_eq_false hlen))
                rw [this] at hph
                cases hph
          rw [if_pos rfl, if_pos hlt]
      · cases ht
    · cases ht
  exact ⟨exec_preserves_done req acts c2 final i timeoutResponse hdone hrest,
    rfl, fun m => rfl, fun m => rfl, by omega, by omega⟩

def c9snap : Snapshot := ⟨200, "application/json".toList, some .null, none⟩

def c9c1 : Config :=
  ⟨some ⟨none, false, 0⟩, none, [.invoking, .waiting], 1, 1⟩

def c9c2 : Config :=
  ⟨some ⟨none, false, 0⟩, none, [.invoking, .done timeoutResponse], 1, 1⟩

def c9final : Config :=
  ⟨some ⟨some c9snap, true, 0⟩, some ⟨c5req, c9snap, 1⟩,
    [.done (leaderResponse (.ok c9snap)), .done timeoutResponse], 1, 2⟩

theorem thmC9_witness :
    step c5req c9c1 (.timeout 1) = some c9c2 ∧
    exec c5req c9c2 [.leaderDone 0 (.ok c9snap)] = some c9final ∧
    c9final.tasks[1]? = some (.done timeoutResponse) :=
  ⟨rfl, rfl,
    (thmC9_follower_timeout c5req c9c1 c9c2 c9final 1
      [.leaderDone 0 (.ok c9snap)] rfl rfl).1⟩


/-! ## C8: the last-result lookup (`get_last_chat_completion`, 595-673)

The handler is a pure function of the stored entry, the incoming
request, the pending entry's state at the check (`can_wait`) and the
outcome of the bounded wait.  A completed wait always finds a stored
snapshot because the leader stores the result before setting the event
under the same lock section, so `WaitOutcome.completed` carries it. -/

/-- Python `==` comparison of the stored request triple with the
incoming one (line 626-630): exact string equality on `base_url` and
`api_key`, structural comparison on `payload`. -/
def reqBeq (r1 r2 : ChatReq) : Bool :=
  r1.baseUrl == r2.baseUrl && r1.apiKey == r2.apiKey && Json.beq r1.payload r2.payload

inductive WaitOutcome where
  | completed (r : Snapshot)
  | timedOut

/-- `Response(status_code=204)`. -/
def response204 : Response := ⟨204, .emptyB⟩

/-- The code path of `get_last_chat_completion`: no stored entry → wait
on an incomplete pending entry or 204; stored entry → return it on a
field-for-field match, else wait on an incomplete pending entry or
204. -/
def getLastChatCompletion (entry : Option LastEntry) (incoming : ChatReq)
    (pendingExists pendingEventSet : Bool) (wait : WaitOutcome) : Response :=
  match entry with
  | none =>
      if pendingExists && !pendingEventSet then
        match wait with
        | .completed r => responseOf r
        | .timedOut => response204
      else response204
  | some e =>
      if reqBeq e.req incoming then responseOf e.res
      else
        if pendingExists && !pendingEventSet then
          match wait with
          | .completed r => responseOf r
          | .timedOut => response204
        else response204

/-- The lookup as the specification words it: (1) if the stored record's
request snapshot equals the incoming one field-for-field, return its
response; (2) else, if an incomplete pending entry exists for the same
fingerprint, await it and return its eventual result if it arrives in
time; (3) else return the non-error no-content response. -/
def specLastLookup (entry : Option LastEntry) (incoming : ChatReq)
    (pendingExists pendingEventSet : Bool) (wait : WaitOutcome) : Response :=
  if (match entry with | some e => reqBeq e.req incoming | none => false) then
    match entry with
    | some e => responseOf e.res
    | none => response204
  else if pendingExists && !pendingEventSet then
    match wait with
    | .completed r => responseOf r
    | .timedOut => response204
  else response204

/-- C8: the last-result lookup follows exactly the three specified steps
— the code path and the specification's step description agree on every
input. -/
theorem thmC8_lookup_follows_spec (entry : Option LastEntry) (incoming : ChatReq)
    (pendingExists pendingEventSet : Bool) (wait : WaitOutcome) :
    getLastChatCompletion entry incoming pendingExists pendingEventSet wait
      = specLastLookup entry incoming pendingExists pendingEventSet wait := by
  cases entry with
  | none => cases pendingExists <;> cases pendingEventSet <;> cases wait <;> rfl
  | some e =>
      cases hb : reqBeq e.req incoming <;>
        cases pendingExists <;> cases pendingEventSet <;> cases wait <;>
          simp [getLastChatCompletion, specLastLookup, hb]

/-! ## C1: singleflight coalescing -/

def isArrive : Act → Bool
  | .arrive _ => true
  | _ => false

def isTimeoutAct : Act → Bool
  | .timeout _ => true
  | _ => false

def arrFree (acts : List Act) : Bool := acts.all (fun a => !isArrive a)

/-- Every arrival happens before the first completion: once a
`leaderDone` appears, no further `arrive` follows it. -/
def arrivalsFirst : List Act → Bool
  | [] => true
  | .leaderDone _ _ :: rest => arrFree rest
  | _ :: rest => arrivalsFirst rest

def noTimeoutActs (acts : List Act) : Bool := acts.all (fun a => !isTimeoutAct a)

/-- Phase A: nobody has arrived yet. -/
def InvA (c : Config) : Prop :=
  c.pending = none ∧ c.upCount = 0 ∧
  ∀ (i : Nat) (t : Phase), c.tasks[i]? = some t → t = .start

/-- Phase B: one leader registered the pending entry and is invoking
upstream; everyone else is fresh or waiting on the event. -/
def InvB (c : Config) : Prop :=
  (∃ e, c.pending = some e ∧ e.eventSet = false ∧ e.result = none) ∧
  c.upCount = 1 ∧
  ∃ L : Nat, c.tasks[L]? = some .invoking ∧
    ∀ (i : Nat) (t : Phase), c.tasks[i]? = some t → i ≠ L → (t = .start ∨ t = .waiting)

/-- Phase C: the single upstream call completed with outcome `u`; every
finished task carries either the leader's response or the shared
snapshot response, and the entry can only disappear once no follower is
still waiting. -/
def InvC (u : UpOutcome) (c : Config) : Prop :=
  c.upCount = 1 ∧
  (c.pending = none ∨
    ∃ e, c.pending = some e ∧ e.eventSet = true ∧ e.result = some (errSnapshot u)) ∧
  (c.pending = none → ∀ (i : Nat) (t : Phase), c.tasks[i]? = some t → t ≠ .waiting) ∧
  ∀ (i : Nat) (t : Phase), c.tasks[i]? = some t →
    (t = .start ∨ t = .waiting ∨ t = .done (leaderResponse u) ∨
      t = .done (responseOf (errSnapshot u)))

theorem lt_of_getElem?_eq_some {α : Type} {l : List α} {i : Nat} {x : α}
    (h : l[i]? = some x) : i < l.length := by
  cases hlt : decide (i < l.length) with
  | true => exact of_decide_eq_true hlt
  | false =>
      rw [List.getElem?_eq_none (le_of_not_lt (of_decide_eq_false hlt))] at h
      cases h

theorem getElem?_set_self_of_some {α : Type} {l : List α} {i : Nat} {x t : α}
    (h : l[i]? = some x) : (l.set i t)[i]? = some t := by
  rw [List.getElem?_set, if_pos rfl, if_pos (lt_of_getElem?_eq_some h)]

theorem invB_invC_absurd {c : Config} {u : UpOutcome}
    (hB : InvB c) (hC : InvC u c) : False := by
  obtain ⟨_, _, L, hL, _⟩ := hB
  rcases hC.2.2.2 L .invoking hL with h | h | h | h <;> cases h

theorem arrivalsFirst_of_arrFree :
    ∀ {l : List Act}, arrFree l = true → arrivalsFirst l = true := by
  intro l
  induction l with
  | nil => intro _; rfl
  | cons a rest ih =>
      intro h
      rw [arrFree, List.all_cons] at h
      obtain ⟨ha, hrest⟩ := Bool.and_eq_true_iff.mp h
      cases a with
      | leaderDone i u => exact hrest
      | arrive i => cases ha
      | wake i => exact ih hrest
      | timeout i => exact ih hrest
      | cleanup ca => exact ih hrest

theorem arrivalsFirst_tail {a : Act} {rest : List Act}
    (h : arrivalsFirst (a :: rest) = true) : arrivalsFirst rest = true := by
  cases a with
  | leaderDone i u => exact arrivalsFirst_of_arrFree h
  | arrive i => exact h
  | wake i => exact h
  | timeout i => exact h
  | cleanup ca => exact h

/-- From a fresh registry, the only enabled step is an arrival, which
elects that caller as the unique leader and counts the one upstream
invocation. -/
theorem stepA (req : ChatReq) (c c2 : Config) (a : Act)
    (hA : InvA c) (hstep : step req c a = some c2) : InvB c2 := by
  obtain ⟨hp, hu, ht⟩ := hA
  cases a with
  | arrive i =>
      rw [step] at hstep
      cases hph : c.tasks[i]? with
      | none => rw [hph] at hstep; cases hstep
      | some ph =>
          have hst := ht i ph hph
          subst hst
          rw [hph, hp] at hstep
          cases hstep
          refine ⟨⟨⟨none, false, c.stamp⟩, rfl, rfl, rfl⟩, by rw [hu], i, ?_, ?_⟩
          · exact getElem?_set_self_of_some hph
          · intro j t hj hne
            rw [List.getElem?_set_ne (Ne.symm hne)] at hj
            exact Or.inl (ht j t hj)
  | leaderDone i u =>
      rw [step] at hstep
      cases hph : c.tasks[i]? with
      | none => rw [hph] at hstep; cases hstep
      | some ph =>
          have hst := ht i ph hph
          subst hst
          rw [hph] at hstep
          cases hstep
  | wake i =>
      rw [step] at hstep
      cases hph : c.tasks[i]? with
      | none => rw [hph] at hstep; cases hstep
      | some ph =>
          have hst := ht i ph hph
          subst hst
          rw [hph] at hstep
          cases hstep
  | timeout i =>
      rw [step] at hstep
      cases hph : c.tasks[i]? with
      | none => rw [hph] at hstep; cases hstep
      | some ph =>
          have hst := ht i ph hph
          subst hst
          rw [hph] at hstep
          cases hstep
  | cleanup ca =>
      rw [step] at hstep
      rw [hp] at hstep
      cases hstep

/-- While a leader is in flight, further arrivals become followers (no
second invocation), and only the leader's completion leaves the phase. -/
theorem stepB (req : ChatReq) (c c2 : Config) (a : Act)
    (hB : InvB c) (hstep : step req c a = some c2)
    (hnt : isTimeoutAct a = false) :
    InvB c2 ∨ ((∃ i u2, a = .leaderDone i u2) ∧ ∃ u, InvC u c2) := by
  obtain ⟨⟨e, hp, hev, hres⟩, hu, L, hL, ht⟩ := hB
  cases a with
  | arrive i =>
      left
      rw [step] at hstep
      cases hph : c.tasks[i]? with
      | none => rw [hph] at hstep; cases hstep
      | some ph =>
          rw [hph] at hstep
          cases ph with
          | start =>
              rw [hp] at hstep
              dsimp only at hstep
              rw [if_neg (by simp [hev])] at hstep
              cases hstep
              have hiL : i ≠ L := by
                intro h
                rw [h, hL] at hph
                cases hph
              refine ⟨⟨e, rfl, hev, hres⟩, hu, L, ?_, ?_⟩
              · rw [List.getElem?_set_ne hiL]
                exact hL
              · intro j t hj hne
                by_cases hij : i = j
                · subst hij
                  rw [getElem?_set_self_of_some hph] at hj
                  cases hj
                  exact Or.inr rfl
                · rw [List.getElem?_set_ne hij] at hj
                  exact ht j t hj hne
          | waiting => cases hstep
          | invoking => cases hstep
          | done r => cases hstep
  | leaderDone i u =>
      right
      refine ⟨⟨i, u, rfl⟩, u, ?_⟩
      rw [step] at hstep
      cases hph : c.tasks[i]? with
      | none => rw [hph] at hstep; cases hstep
      | some ph =>
          rw [hph] at hstep
          cases ph with
          | invoking =>
              cases hstep
              have hiL : i = L := by
                by_contra hne
                rcases ht i .invoking hph hne with h | h <;> cases h
              refine ⟨hu, ?_, ?_, ?_⟩
              · right
                refine ⟨{ e with result := some (errSnapshot u), eventSet := true }, ?_, rfl, rfl⟩
                show pendingAfterLeader (errSnapshot u) c.pending = _
                rw [hp, pendingAfterLeader]
              · intro hnone
                rw [show ({ c with
                    pending := pendingAfterLeader (errSnapshot u) c.pending,
                    cache := cacheAfterLeader req c u,
                    tasks := c.tasks.set i (.done (leaderResponse u)),
                    stamp := c.stamp + 1 } : Config).pending
                    = pendingAfterLeader (errSnapshot u) c.pending from rfl, hp,
                  pendingAfterLeader] at hnone
                cases hnone
              · intro j t hj
                by_cases hij : i = j
                · subst hij
                  rw [getElem?_set_self_of_some hph] at hj
                  cases hj
                  exact Or.inr (Or.inr (Or.inl rfl))
                · rw [List.getElem?_set_ne hij] at hj
                  have hjL : j ≠ L := by
                    intro h
                    rw [hiL, ← h] at hij
                    exact hij rfl
                  rcases ht j t hj hjL with h | h
                  · exact Or.inl h
                  · exact Or.inr (Or.inl h)
          | start => cases hstep
          | waiting => cases hstep
          | done r => cases hstep
  | wake i =>
      rw [step] at hstep
      cases hph : c.tasks[i]? with
      | none => rw [hph] at hstep; cases hstep
      | some ph =>
          rw [hph] at hstep
          cases ph with
          | waiting =>
              rw [hp] at hstep
              dsimp only at hstep
              rw [if_neg (by simp [hev])] at hstep
              cases hstep
          | start => cases hstep
          | invoking => cases hstep
          | done r => cases hstep
  | timeout i =>
      rw [isTimeoutAct] at hnt
      cases hnt
  | cleanup ca =>
      rw [step] at hstep
      rw [hp] at hstep
      dsimp only at hstep
      rw [if_neg (by simp [hev])] at hstep
      cases hstep

/-- After completion, with no further arrival and no timeout, every step
(waking a follower, cleaning up the entry) keeps the completed-phase
invariant for the same outcome. -/
theorem stepC (req : ChatReq) (c c2 : Config) (a : Act) (u : UpOutcome)
    (hC : InvC u c) (hstep : step req c a = some c2)
    (hna : isArrive a = false) (hnt : isTimeoutAct a = false) :
    InvC u c2 := by
  obtain ⟨hu, hpend, hnw, ht⟩ := hC
  cases a with
  | arrive i =>
      rw [isArrive] at hna
      cases hna
  | timeout i =>
      rw [isTimeoutAct] at hnt
      cases hnt
  | leaderDone i u2 =>
      rw [step] at hstep
      cases hph : c.tasks[i]? with
      | none => rw [hph] at hstep; cases hstep
      | some ph =>
          rw [hph] at hstep
          cases ph with
          | invoking =>
              rcases ht i .invoking hph with h | h | h | h <;> cases h
          | start => cases hstep
          | waiting => cases hstep
          | done r => cases hstep
  | wake i =>
      rw [step] at hstep
      cases hph : c.tasks[i]? with
      | none => rw [hph] at hstep; cases hstep
      | some ph =>
          rw [hph] at hstep
          cases ph with
          | waiting =>
              rcases hpend with hpn | ⟨e, hp, hev, hres⟩
              · exact absurd rfl (hnw hpn i .waiting hph)
              · rw [hp] at hstep
                dsimp only at hstep
                rw [if_pos hev, hres] at hstep
                cases hstep
                refine ⟨hu, Or.inr ⟨e, rfl, hev, hres⟩, ?_, ?_⟩
                · intro hnone
                  cases hnone
                · intro j t hj
                  by_cases hij : i = j
                  · subst hij
                    rw [getElem?_set_self_of_some hph] at hj
                    cases hj
                    exact Or.inr (Or.inr (Or.inr rfl))
                  · rw [List.getElem?_set_ne hij] at hj
                    exact ht j t hj
          | start => cases hstep
          | invoking => cases hstep
          | done r => cases hstep
  | cleanup ca =>
      rw [step] at hstep
      cases hpc : c.pending with
      | none => rw [hpc] at hstep; cases hstep
      | some e =>
          rw [hpc] at hstep
          dsimp only at hstep
          by_cases hcond : (e.eventSet && e.createdAt == ca && noWaiting c.tasks) = true
          · rw [if_pos hcond] at hstep
            cases hstep
            refine ⟨hu, Or.inl rfl, ?_, ht⟩
            intro _ i t hti heq
            subst heq
            have hnwAll : noWaiting c.tasks = true :=
              (Bool.and_eq_true_iff.mp hcond).2
            have hpred := List.all_eq_true.mp hnwAll _ (List.getElem?_mem hti)
            cases hpred
          · rw [if_neg hcond] at hstep
            cases hstep

theorem exec_phase_inv (req : ChatReq) (acts : List Act) :
    ∀ (c final : Config),
      (InvA c ∨ InvB c ∨ ∃ u, InvC u c) →
      arrivalsFirst acts = true →
      noTimeoutActs acts = true →
      ((∃ u2, InvC u2 c) → arrFree acts = true) →
      exec req c acts = some final →
      (InvA final ∨ InvB final ∨ ∃ u, InvC u final) := by
  induction acts with
  | nil =>
      intro c final hinv _ _ _ hrun
      rw [exec] at hrun
      cases hrun
      exact hinv
  | cons a rest ih =>
      intro c final hinv hord hnt hCfree hrun
      rw [exec] at hrun
      cases hstep : step req c a with
      | none => rw [hstep] at hrun; cases hrun
      | some c2 =>
          rw [hstep] at hrun
          have hntPair := Bool.and_eq_true_iff.mp (by
            rw [noTimeoutActs, List.all_cons] at hnt
            exact hnt)
          have hntA : isTimeoutAct a = false := by
            cases h : isTimeoutAct a with
            | false => rfl
            | true => rw [h] at hntPair; cases hntPair.1
          have hntRest : noTimeoutActs rest = true := hntPair.2
          rcases hinv with hA | hB | ⟨u, hCc⟩
          · have hB2 := stepA req c c2 a hA hstep
            exact ih c2 final (Or.inr (Or.inl hB2)) (arrivalsFirst_tail hord)
              hntRest (fun ⟨u2, hC2⟩ => absurd (invB_invC_absurd hB2 hC2) not_false)
              hrun
          · rcases stepB req c c2 a hB hstep hntA with hB2 | ⟨⟨i, u2, hld⟩, u, hC2⟩
            · exact ih c2 final (Or.inr (Or.inl hB2)) (arrivalsFirst_tail hord)
                hntRest (fun ⟨u3, hC3⟩ => absurd (invB_invC_absurd hB2 hC3) not_false)
                hrun
            · subst hld
              have hfree : arrFree rest = true := hord
              exact ih c2 final (Or.inr (Or.inr ⟨u, hC2⟩))
                (arrivalsFirst_of_arrFree hfree) hntRest (fun _ => hfree) hrun
          · have harr : arrFree (a :: rest) = true := hCfree ⟨u, hCc⟩
            have harrPair := Bool.and_eq_true_iff.mp (by
              rw [arrFree, List.all_cons] at harr
              exact harr)
            have hnaA : isArrive a = false := by
              cases h : isArrive a with
              | false => rfl
              | true => rw [h] at harrPair; cases harrPair.1
            have hC2 := stepC req c c2 a u hCc hstep hnaA hntA
            exact ih c2 final (Or.inr (Or.inr ⟨u, hC2⟩))
              (arrivalsFirst_of_arrFree harrPair.2) hntRest (fun _ => harrPair.2)
              hrun

theorem initInvA (n : Nat) : InvA (init n) := by
  refine ⟨rfl, rfl, ?_⟩
  intro i t ht
  exact List.eq_of_mem_replicate (List.getElem?_mem ht)

theorem leader_follower_status (u : UpOutcome) :
    (leaderResponse u).status = (responseOf (errSnapshot u)).status := by
  cases u <;> rfl

/-- C1, corrected: in every schedule of `n > 0` concurrent callers of the
relay sharing one fingerprint in which all arrivals precede the leader's
completion and no follower wait times out, exactly one upstream
invocation occurs (the caller that registers the pending entry is the
sole leader), and all callers observe the same response status; when the
upstream call returns a snapshot (no transport/internal exception) all
callers observe the same body as well.  (On an exception, statuses still
agree but the leader's body differs from the followers' — see the
counterexample.  The decision and the registry mutation happen in two
separate lock sections in the source, lines 430-439 and 479-488, but no
suspension point lies between them, so they act as one atomic step under
cooperative scheduling, which is what the `arrive` label models.) -/
theorem thmC1_amended (req : ChatReq) (n : Nat) (acts : List Act) (final : Config)
    (hrun : exec req (init n) acts = some final)
    (hord : arrivalsFirst acts = true)
    (hnt : noTimeoutActs acts = true)
    (hn : 0 < n)
    (hdone : ∀ i, i < n → ∃ r, final.tasks[i]? = some (.done r)) :
    final.upCount = 1 ∧
    ∃ u : UpOutcome,
      (∀ (i : Nat) (r : Response), final.tasks[i]? = some (.done r) →
        r = leaderResponse u ∨ r = responseOf (errSnapshot u)) ∧
      (∀ (i j : Nat) (ri rj : Response), final.tasks[i]? = some (.done ri) →
        final.tasks[j]? = some (.done rj) → ri.status = rj.status) ∧
      (∀ s : Snapshot, u = .ok s → ∀ (i : Nat) (r : Response),
        final.tasks[i]? = some (.done r) → r = responseOf s) := by
  have hfin := exec_phase_inv req acts (init n) final (Or.inl (initInvA n)) hord hnt
    (fun ⟨u, hC⟩ => by cases hC.1) hrun
  obtain ⟨r0, hr0⟩ := hdone 0 hn
  rcases hfin with hA | hB | ⟨u, hC⟩
  · have := hA.2.2 0 _ hr0
    cases this
  · obtain ⟨_, _, L, hL, ht⟩ := hB
    by_cases h0L : 0 = L
    · rw [← h0L, hr0] at hL
      cases hL
    · rcases ht 0 _ hr0 h0L with h | h <;> cases h
  · obtain ⟨hu, _, _, ht⟩ := hC
    refine ⟨hu, u, ?_, ?_, ?_⟩
    · intro i r hr
      rcases ht i _ hr with h | h | h | h
      · cases h
      · cases h
      · exact Or.inl (Phase.done.inj h)
      · exact Or.inr (Phase.done.inj h)
    · intro i j ri rj hri hrj
      have hi : ri = leaderResponse u ∨ ri = responseOf (errSnapshot u) := by
        rcases ht i _ hri with h | h | h | h
        · cases h
        · cases h
        · exact Or.inl (Phase.done.inj h)
        · exact Or.inr (Phase.done.inj h)
      have hj : rj = leaderResponse u ∨ rj = responseOf (errSnapshot u) := by
        rcases ht j _ hrj with h | h | h | h
        · cases h
        · cases h
        · exact Or.inl (Phase.done.inj h)
        · exact Or.inr (Phase.done.inj h)
      rcases hi with hi | hi <;> rcases hj with hj | hj <;> rw [hi, hj]
      · exact leader_follower_status u
      · exact (leader_follower_status u).symm
    · intro s hus i r hr
      subst hus
      rcases ht i _ hr with h | h | h | h
      · cases h
      · cases h
      · rw [Phase.done.inj h]
        rfl
      · rw [Phase.done.inj h]
        rfl

def c1m : List Char := "boom".toList

def c1final : Config :=
  ⟨some ⟨some (errSnapshot (.transportErr c1m)), true, 0⟩, none,
    [.done (leaderResponse (.transportErr c1m)),
      .done (responseOf (errSnapshot (.transportErr c1m)))], 1, 3⟩

/-- C1 counterexample: with two concurrent callers and an upstream
transport error, both observe status 502, but the leader's body is the
`HTTPException` detail object while the follower receives the stored
error snapshot with the `error` key — the bodies differ, refuting
"all N callers observe the same response status and body". -/
theorem thmC1_counterexample :
    exec c5req (init 2)
        [.arrive 0, .arrive 1, .leaderDone 0 (.transportErr c1m), .wake 1]
      = some c1final ∧
    c1final.tasks[0]? = some (.done (leaderResponse (.transportErr c1m))) ∧
    c1final.tasks[1]? = some (.done (responseOf (errSnapshot (.transportErr c1m)))) ∧
    (leaderResponse (.transportErr c1m)).status
      = (responseOf (errSnapshot (.transportErr c1m))).status ∧
    leaderResponse (.transportErr c1m) ≠ responseOf (errSnapshot (.transportErr c1m)) := by
  refine ⟨rfl, rfl, rfl, rfl, ?_⟩
  intro h
  have hb : (leaderResponse (.transportErr c1m)).body
      = (responseOf (errSnapshot (.transportErr c1m))).body := by rw [h]
  have hj : Json.obj [("detail".toList,
        .str ("Upstream request failed: ".toList ++ c1m))]
      = Json.obj [("error".toList,
        .str ("Upstream request failed: ".toList ++ c1m))] :=
    RBody.jsonB.inj hb
  exact Json.ne_of_beq_false (by decide) hj

def c1okFinal : Config :=
  ⟨some ⟨some c9snap, true, 0⟩, some ⟨c5req, c9snap, 2⟩,
    [.done (leaderResponse (.ok c9snap)), .done (responseOf c9snap)], 1, 3⟩

theorem thmC1_witness :
    exec c5req (init 2)
        [.arrive 0, .arrive 1, .leaderDone 0 (.ok c9snap), .wake 1]
      = some c1okFinal ∧
    c1okFinal.upCount = 1 :=
  ⟨rfl,
    (thmC1_amended c5req 2
      [.arrive 0, .arrive 1, .leaderDone 0 (.ok c9snap), .wake 1]
      c1okFinal rfl rfl rfl (by omega)
      (fun i hi =>
        match i, hi with
        | 0, _ => ⟨leaderResponse (.ok c9snap), rfl⟩
        | 1, _ => ⟨responseOf c9snap, rfl⟩)).1⟩

end NC
